import Mathlib

/-!
Verification development for the graphs repository: a deterministic graph
traversal engine (Dijkstra with two strategies, BFS/DFS, connected
components) over undirected weighted graphs.

The repository ships `src/analysis/connected_components/connected_components.py`
and the Dijkstra test suite `src/dsa/graphs/analysis/traversal/dijkstra_test.py`.
The `Graph`, `Order`, `dijkstra`, `bfs` and `dfs` implementations themselves are
not part of the sources, so they are modelled here from the specification
(sections 3, 4.1-4.5) and settled against that model; the connected-components
helper is translated directly from its Python source.
-/

namespace GraphsSpec

/-- Weights and distances: non-negative numerics in the source.  The engine
only ever adds and compares weights, and every weight appearing in the claims
is an integer, so they are modelled as ℤ (kernel-computable, unlike ℚ). -/
abbrev W := ℤ

/-- Error taxonomy of the specification (section 7).  `typeErrorUnpack` stands
for the Python `TypeError` raised by unpacking a non-iterable object, and
`unsupportedTraversalKind` for the `ValueError` the components helper raises on
an unrecognized traversal kind (named `UnsupportedTraversalKindError` in the
spec's taxonomy). -/
inductive Err where
  | notOrderable
  | invalidStart
  | unknownEdge
  | typeErrorUnpack
  | unsupportedTraversalKind
deriving DecidableEq

/-- Modelled from the spec: the `Order` enum of the missing
`dsa/graphs/analysis/traversal/order.py` (values `Order.SORTED` and
`Order.REVERSE_SORTED`, i.e. ascending / descending). -/
inductive Order where
  | SORTED
  | REVERSE_SORTED
deriving DecidableEq

/-- Modelled from the spec: a seed-order request is either one of the `Order`
values or an explicit start node (section 4.2's `ExplicitStart`). -/
inductive SeedOrder (α : Type) where
  | ord (o : Order)
  | node (a : α)
deriving DecidableEq

/-- Modelled from the spec: the `TraversalType` enum of the missing
`graphs/analysis/traversal_type.py`.  `other tag` stands for any unrecognized
value a caller could pass instead of `BFS`/`DFS`. -/
inductive TraversalType where
  | BFS
  | DFS
  | other (tag : String)
deriving DecidableEq

/-- A partial comparison on node identities: `none` when the two identities are
mutually incomparable (the Python `TypeError` on `<`). -/
abbrev Cmp (α : Type) := α → α → Option Ordering

/-- Modelled from the spec: node identities of the test suite are Python ints
or strings; a mixed pair is mutually incomparable. -/
inductive NodeId where
  | int (n : ℤ)
  | str (s : String)
deriving DecidableEq

/-- Comparison on `NodeId`: ints compare with ints, strings with strings,
mixed pairs are incomparable. -/
def cmpNodeId : Cmp NodeId
  | .int a, .int b => some (compare a b)
  | .str a, .str b => some (compare a b)
  | _, _ => none

/-- Total comparison on ℕ node identities. -/
def cmpN : Cmp ℕ := fun a b => some (compare a b)

/-- Modelled from the spec (section 3): a graph is a node set (insertion
order) plus undirected weighted edges (insertion order); multi-edges and
self-loops are permitted. -/
structure Graph (α : Type) where
  nodes : List α
  edges : List (α × α × W)
deriving DecidableEq

/-- Modelled from the spec: the `Graph(nodes=n, edges=...)` constructor of the
missing `dsa/graphs/graph.py`, with an integer node count `n` (nodes are
`0..n-1`) and edges given as a mapping from node pairs to weights. -/
def Graph.ofN (n : ℕ) (es : List ((ℕ × ℕ) × W)) : Graph ℕ :=
  ⟨List.range n, es.map (fun p => (p.1.1, p.1.2, p.2))⟩

/-- Modelled from the spec (section 4.1): a node's adjacency with weights, in
the graph's natural (insertion) order. -/
def Graph.neighbors {α : Type} [DecidableEq α] (g : Graph α) (u : α) : List (α × W) :=
  g.edges.filterMap (fun e =>
    if e.1 = u then some (e.2.1, e.2.2)
    else if e.2.1 = u then some (e.1, e.2.2) else none)

/-- Reassign the weight of the first edge matching the endpoints (in either
orientation); `none` when no such edge exists. -/
def setWeightEdges {α : Type} [DecidableEq α] (a b : α) (w : W) :
    List (α × α × W) → Option (List (α × α × W))
  | [] => none
  | (x, y, w') :: rest =>
    if (x = a ∧ y = b) ∨ (x = b ∧ y = a) then some ((x, y, w) :: rest)
    else (setWeightEdges a b w rest).map (fun l => (x, y, w') :: l)

/-- Modelled from the spec (section 4.1): `Graph.set_weight`, failing with
`UnknownEdgeError` when the edge does not exist. -/
def Graph.set_weight {α : Type} [DecidableEq α] (g : Graph α) (e : α × α) (w : W) :
    Except Err (Graph α) :=
  match setWeightEdges e.1 e.2 w g.edges with
  | some es => .ok ⟨g.nodes, es⟩
  | none => .error .unknownEdge

/-- Weight of the first edge matching the endpoints, if any. -/
def getWeightEdges {α : Type} [DecidableEq α] (a b : α) :
    List (α × α × W) → Option W
  | [] => none
  | (x, y, w') :: rest =>
    if (x = a ∧ y = b) ∨ (x = b ∧ y = a) then some w'
    else getWeightEdges a b rest

/-- Current weight of an edge of the graph, if present. -/
def Graph.get_weight {α : Type} [DecidableEq α] (g : Graph α) (e : α × α) : Option W :=
  getWeightEdges e.1 e.2 g.edges

/-! ### Ordering policies -/

/-- All pairs of candidates are mutually comparable (section 4.2's
orderability requirement). -/
def mutuallyComparable {α : Type} (cmp : Cmp α) : List α → Bool
  | [] => true
  | x :: xs => xs.all (fun y => (cmp x y).isSome) && mutuallyComparable cmp xs

/-- Fold selecting the first element strictly better than everything before
it (used for min/max picking and for the array-scan selection). -/
def pickBy {α : Type} (better : α → α → Bool) (x : α) (xs : List α) : α :=
  xs.foldl (fun best y => if better y best then y else best) x

/-- Insertion step of a stable insertion sort by a boolean `le`. -/
def insertLe {α : Type} (le : α → α → Bool) (a : α) : List α → List α
  | [] => [a]
  | b :: l => if le a b then a :: b :: l else b :: insertLe le a l

/-- Insertion sort by a boolean `le`. -/
def sortLe {α : Type} (le : α → α → Bool) (l : List α) : List α :=
  l.foldr (insertLe le) []

/-- Comparison on adjacency entries by node identity, for the requested order. -/
def nbrLe {α : Type} (cmp : Cmp α) (o : Order) (p q : α × W) : Bool :=
  match o with
  | .SORTED => decide (cmp p.1 q.1 ≠ some .gt)
  | .REVERSE_SORTED => decide (cmp p.1 q.1 ≠ some .lt)

/-- Modelled from the spec (section 4.2, `resolve_neighbors`): ascending /
descending sort the adjacency by node identity (failing with
`NotOrderableError` on incomparable identities); a natural (`none`) policy
leaves the adjacency in insertion order. -/
def resolveNbrs {α : Type} (cmp : Cmp α) (np : Option Order) (ns : List (α × W)) :
    Except Err (List (α × W)) :=
  match np with
  | none => .ok ns
  | some o =>
    if mutuallyComparable cmp (ns.map Prod.fst) then .ok (sortLe (nbrLe cmp o) ns)
    else .error .notOrderable

/-- Modelled from the spec (section 4.2, `resolve_seed`): ascending/descending
pick the min/max unvisited node (failing with `NotOrderableError` on
incomparable candidates); an explicit node is returned on first use (failing
with `InvalidStartError` when it is not unvisited) and later seed requests
fall back to ascending order. -/
def resolveSeed {α : Type} [DecidableEq α] (cmp : Cmp α) (sp : SeedOrder α)
    (used : Bool) (u : α) (us : List α) : Except Err α :=
  match sp with
  | .ord .SORTED =>
    if mutuallyComparable cmp (u :: us) then
      .ok (pickBy (fun x y => decide (cmp x y = some .lt)) u us)
    else .error .notOrderable
  | .ord .REVERSE_SORTED =>
    if mutuallyComparable cmp (u :: us) then
      .ok (pickBy (fun x y => decide (cmp x y = some .gt)) u us)
    else .error .notOrderable
  | .node n =>
    if used then
      if mutuallyComparable cmp (u :: us) then
        .ok (pickBy (fun x y => decide (cmp x y = some .lt)) u us)
      else .error .notOrderable
    else if n ∈ u :: us then .ok n
    else .error .invalidStart

/-! ### Assoc-list state (insertion-ordered maps, as Python dicts) -/

/-- Lookup in an insertion-ordered association list. -/
def alookup {α : Type} {β : Type} [DecidableEq α] : List (α × β) → α → Option β
  | [], _ => none
  | (a, b) :: l, x => if x = a then some b else alookup l x

/-- Update the first binding of a key in place, or append a fresh binding
(Python dict assignment semantics). -/
def aset {α : Type} {β : Type} [DecidableEq α] : List (α × β) → α → β → List (α × β)
  | [], x, y => [(x, y)]
  | (a, b) :: l, x, y => if x = a then (a, y) :: l else (a, b) :: aset l x y

/-- Index of the first occurrence of an element (its discovery sequence
number when applied to the discovery list). -/
def idxO {α : Type} [DecidableEq α] (a : α) : List α → ℕ
  | [] => 0
  | x :: l => if a = x then 0 else idxO a l + 1

/-! ### Dijkstra engine (section 4.4) -/

/-- Per-component Dijkstra state shared by both strategies: tentative
distances and parents (insertion-ordered), the discovery list (first-discovery
order), the settled list (settlement order) and the cycle flag. -/
structure Core (α : Type) where
  parent : List (α × Option α)
  dist : List (α × W)
  disc : List α
  settled : List α
  cycle : Bool
deriving DecidableEq

/-- Tentative distance of a discovered node. -/
def distOf {α : Type} [DecidableEq α] (c : Core α) (v : α) : W :=
  (alookup c.dist v).getD 0

/-- Recorded parent of a discovered node. -/
def parentOf {α : Type} [DecidableEq α] (c : Core α) (u : α) : Option α :=
  (alookup c.parent u).getD none

/-- Discovered-but-unsettled nodes, in discovery order. -/
def candidates {α : Type} [DecidableEq α] (c : Core α) : List α :=
  c.disc.filter (fun v => decide (v ∉ c.settled))

/-- Modelled from the spec (section 4.4): relaxation of one neighbor `(v, w)`
of the just-settled node `u` with settled distance `du`.  A settled neighbor
other than `u`'s parent records a cycle; an undiscovered neighbor is
discovered; a discovered unsettled neighbor is re-relaxed only on a strictly
smaller distance.  Returns the new tentative distance when `v` was discovered
or improved (the heap strategy pushes an entry for it). -/
def relaxOne {α : Type} [DecidableEq α] (u : α) (du : W) (c : Core α) (vw : α × W) :
    Core α × Option (W × α) :=
  let v := vw.1
  let w := vw.2
  if v ∈ c.settled then
    ({ c with cycle := c.cycle || decide (parentOf c u ≠ some v) }, none)
  else
    match alookup c.dist v with
    | none =>
      ({ c with dist := c.dist ++ [(v, du + w)], parent := c.parent ++ [(v, some u)],
                disc := c.disc ++ [v] }, some (du + w, v))
    | some dv =>
      if du + w < dv then
        ({ c with dist := aset c.dist v (du + w), parent := aset c.parent v (some u) },
         some (du + w, v))
      else (c, none)

/-- Relax every resolved neighbor of `u` in order (core state only). -/
def relaxAll {α : Type} [DecidableEq α] (u : α) (du : W) (c : Core α)
    (ns : List (α × W)) : Core α :=
  ns.foldl (fun c vw => (relaxOne u du c vw).1) c

/-- Mark `u` settled (append to the settlement order). -/
def settleC {α : Type} (c : Core α) (u : α) : Core α :=
  { c with settled := c.settled ++ [u] }

/-- Modelled from the spec (section 4.4, array-scan strategy): full scan of
the discovered-unsettled set, keeping the first node of strictly minimal
tentative distance (ties go to the earlier-discovered node). -/
def scanSelect {α : Type} [DecidableEq α] (c : Core α) : Option α :=
  match candidates c with
  | [] => none
  | v :: vs => some (pickBy (fun x y => decide (distOf c x < distOf c y)) v vs)

/-- Heap entry of the heap strategy: `(distance, discovery sequence number,
node)`. -/
abbrev Entry (α : Type) := W × ℕ × α

/-- Strict lexicographic order on `(distance, discovery number)`. -/
def entryLt {α : Type} (e₁ e₂ : Entry α) : Bool :=
  decide (e₁.1 < e₂.1) || (decide (e₁.1 = e₂.1) && decide (e₁.2.1 < e₂.2.1))

/-- Pop the minimum entry (first occurrence) from the priority structure. -/
def popMinE {α : Type} : List (Entry α) → Option (Entry α × List (Entry α))
  | [] => none
  | e :: es =>
    match popMinE es with
    | none => some (e, [])
    | some (m, rest) => if entryLt m e then some (m, e :: rest) else some (e, es)

/-- Modelled from the spec (section 4.4, heap strategy): pop entries in
priority order, lazily discarding any entry whose recorded distance no longer
matches the live tentative distance, until a valid entry is found. -/
def popValidF {α : Type} [DecidableEq α] (dist : List (α × W)) :
    ℕ → List (Entry α) → Option (α × List (Entry α))
  | 0, _ => none
  | fuel + 1, h =>
    match popMinE h with
    | none => none
    | some (m, h') =>
      if (alookup dist m.2.2).getD 0 = m.1 then some (m.2.2, h')
      else popValidF dist fuel h'

/-- Push a heap entry `(distance, discovery number, node)` for a discovered or
improved neighbor (heap strategy); no entry otherwise. -/
def pushE {α : Type} [DecidableEq α] (c' : Core α) (p : Option (W × α))
    (h : List (Entry α)) : List (Entry α) :=
  match p with
  | none => h
  | some (d, v) => h ++ [(d, idxO v c'.disc, v)]

/-- Relax every resolved neighbor of `u`, also pushing a heap entry for each
discovered or improved neighbor (heap strategy). -/
def relaxH {α : Type} [DecidableEq α] (u : α) (du : W) (ch : Core α × List (Entry α))
    (ns : List (α × W)) : Core α × List (Entry α) :=
  ns.foldl (fun ch vw =>
    ((relaxOne u du ch.1 vw).1, pushE (relaxOne u du ch.1 vw).1 (relaxOne u du ch.1 vw).2 ch.2)) ch

/-- Modelled from the spec (section 4.4): the array-scan per-component loop.
Each iteration settles the scan-selected node and relaxes its neighbors in
neighbor-policy order. -/
def loop1 {α : Type} [DecidableEq α] (cmp : Cmp α) (g : Graph α) (np : Option Order) :
    ℕ → Core α → Except Err (Core α)
  | 0, c => .ok c
  | fuel + 1, c =>
    match scanSelect c with
    | none => .ok c
    | some u =>
      match resolveNbrs cmp np (g.neighbors u) with
      | .error e => .error e
      | .ok ns => loop1 cmp g np fuel (relaxAll u (distOf c u) (settleC c u) ns)

/-- Modelled from the spec (section 4.4): the heap-based per-component loop
with lazy invalidation of stale entries. -/
def loop2 {α : Type} [DecidableEq α] (cmp : Cmp α) (g : Graph α) (np : Option Order) :
    ℕ → Core α → List (Entry α) → Except Err (Core α)
  | 0, c, _ => .ok c
  | fuel + 1, c, h =>
    match popValidF c.dist h.length h with
    | none => .ok c
    | some (u, h₁) =>
      match resolveNbrs cmp np (g.neighbors u) with
      | .error e => .error e
      | .ok ns =>
        match relaxH u (distOf c u) (settleC c u, h₁) ns with
        | (c₂, h₂) => loop2 cmp g np fuel c₂ h₂

/-- Fresh per-component state rooted at `r`. -/
def initCore {α : Type} (r : α) : Core α :=
  ⟨[(r, none)], [(r, 0)], [r], [], false⟩

/-- One full component exploration from root `r`, array-scan strategy. -/
def runComp1 {α : Type} [DecidableEq α] (cmp : Cmp α) (g : Graph α) (np : Option Order)
    (r : α) : Except Err (Core α) :=
  loop1 cmp g np (g.nodes.length + 1) (initCore r)

/-- One full component exploration from root `r`, heap strategy (the heap
starts with the root's entry). -/
def runComp2 {α : Type} [DecidableEq α] (cmp : Cmp α) (g : Graph α) (np : Option Order)
    (r : α) : Except Err (Core α) :=
  loop2 cmp g np (g.nodes.length + 1) (initCore r) [(0, 0, r)]

/-! ### Component/cycle aggregator (section 4.5) -/

/-- Per-component output handed to the aggregator. -/
structure Comp (α : Type) where
  parent : List (α × Option α)
  dist : List (α × W)
  order : List α
  cycle : Bool
deriving DecidableEq

/-- Project the per-component Dijkstra state to the aggregator's view (the
settlement order is the component order). -/
def coreToComp {α : Type} (c : Core α) : Comp α :=
  ⟨c.parent, c.dist, c.settled, c.cycle⟩

/-- Full traversal result: parents, distances, visitation order, components,
cycle flag. -/
structure Result (α : Type) where
  parents : List (α × Option α)
  dists : List (α × W)
  order : List α
  ccs : List (List α)
  contains_cycle : Bool
deriving DecidableEq

/-- Result of a traversal of the empty graph. -/
def emptyResult {α : Type} : Result α :=
  ⟨[], [], [], [], false⟩

/-- Modelled from the spec (section 4.5): repeatedly resolve the next seed
among the unvisited nodes, run one component exploration, and merge its
parents/distances (disjoint union), append its order to the global order and
to the components list, and OR its cycle flag. -/
def aggLoop {α : Type} [DecidableEq α] (cmp : Cmp α) (rc : α → Except Err (Comp α))
    (sp : SeedOrder α) : ℕ → List α → Bool → Except Err (Result α)
  | 0, _, _ => .ok emptyResult
  | _ + 1, [], _ => .ok emptyResult
  | fuel + 1, u :: us, used =>
    match resolveSeed cmp sp used u us with
    | .error e => .error e
    | .ok seed =>
      match rc seed with
      | .error e => .error e
      | .ok comp =>
        match aggLoop cmp rc sp fuel ((u :: us).filter (fun v => decide (v ∉ comp.order))) true with
        | .error e => .error e
        | .ok rest =>
          .ok ⟨comp.parent ++ rest.parents, comp.dist ++ rest.dists,
               comp.order ++ rest.order, comp.order :: rest.ccs,
               comp.cycle || rest.contains_cycle⟩

/-- The requested policies require ordering node identities (section 4.4's
eager orderability requirement). -/
def needsOrder {α : Type} (sp : SeedOrder α) (np : Option Order) : Bool :=
  (match sp with | .ord _ => true | .node _ => false) || np.isSome

/-- Per-component Dijkstra runner for the chosen strategy. -/
def runCompDij {α : Type} [DecidableEq α] (cmp : Cmp α) (g : Graph α) (np : Option Order)
    (use_approach_1 : Bool) (r : α) : Except Err (Comp α) :=
  (if use_approach_1 then runComp1 cmp g np r else runComp2 cmp g np r).map coreToComp

/-- Modelled from the spec (sections 4.4-4.5, 6): `dijkstra(g, use_approach_1,
seed_order, neighbor_order)`.  When an ascending/descending seed or neighbor
policy is requested over a node set that is not mutually comparable it fails
with `NotOrderableError` before any traversal state is created; otherwise the
aggregator drives the chosen per-component strategy. -/
def dijkstra {α : Type} [DecidableEq α] (cmp : Cmp α) (g : Graph α)
    (use_approach_1 : Bool) (seed_order : SeedOrder α) (neighbor_order : Option Order) :
    Except Err (Result α) :=
  if needsOrder seed_order neighbor_order && !mutuallyComparable cmp g.nodes then
    .error .notOrderable
  else
    aggLoop cmp (runCompDij cmp g neighbor_order use_approach_1) seed_order
      (g.nodes.length + 1) g.nodes false

/-! ### Unweighted BFS/DFS engine (section 4.3) -/

/-- Per-component BFS/DFS state: parents, hop levels, visitation order
(doubles as the visited set) and the cycle flag. -/
structure BCore (α : Type) where
  parent : List (α × Option α)
  dist : List (α × W)
  order : List α
  cycle : Bool
deriving DecidableEq

/-- Modelled from the spec (section 4.3): process one neighbor `v` of the
popped node `u`: an unvisited neighbor is visited (parent `u`, level
`level(u)+1`, appended to the order and returned for the pending structure);
a visited neighbor other than `u`'s parent (or a self-loop) records a cycle. -/
def relaxBD {α : Type} [DecidableEq α] (u : α) (c : BCore α) (vw : α × W) :
    BCore α × Option α :=
  let v := vw.1
  if v ∈ c.order then
    ({ c with cycle := c.cycle || decide ((alookup c.parent u).getD none ≠ some v) }, none)
  else
    ({ parent := c.parent ++ [(v, some u)],
       dist := c.dist ++ [(v, (alookup c.dist u).getD 0 + 1)],
       order := c.order ++ [v], cycle := c.cycle }, some v)

/-- Process all neighbors, collecting the newly visited ones in order. -/
def relaxBDAll {α : Type} [DecidableEq α] (u : α) (c : BCore α) (ns : List (α × W)) :
    BCore α × List α :=
  ns.foldl (fun acc vw =>
    match relaxBD u acc.1 vw with
    | (c', none) => (c', acc.2)
    | (c', some v) => (c', acc.2 ++ [v])) (c, [])

/-- Modelled from the spec (section 4.3): the shared BFS/DFS component loop;
the pending discipline is FIFO for BFS and LIFO for DFS. -/
def loopBD {α : Type} [DecidableEq α] (cmp : Cmp α) (g : Graph α) (np : Option Order)
    (isBFS : Bool) : ℕ → List α → BCore α → Except Err (BCore α)
  | 0, _, c => .ok c
  | _ + 1, [], c => .ok c
  | fuel + 1, u :: pend, c =>
    match resolveNbrs cmp np (g.neighbors u) with
    | .error e => .error e
    | .ok ns =>
      match relaxBDAll u c ns with
      | (c', new) => loopBD cmp g np isBFS fuel (if isBFS then pend ++ new else new ++ pend) c'

/-- One full BFS/DFS component exploration from root `r`. -/
def runCompBD {α : Type} [DecidableEq α] (cmp : Cmp α) (g : Graph α) (np : Option Order)
    (isBFS : Bool) (r : α) : Except Err (Comp α) :=
  (loopBD cmp g np isBFS (g.nodes.length + 1) [r] ⟨[(r, none)], [(r, 0)], [r], false⟩).map
    (fun c => ⟨c.parent, c.dist, c.order, c.cycle⟩)

/-- Modelled from the spec (sections 4.3, 4.5, 6): `traverse_bfs_or_dfs`. -/
def traverseBD {α : Type} [DecidableEq α] (cmp : Cmp α) (g : Graph α) (isBFS : Bool)
    (seed_order : SeedOrder α) (neighbor_order : Option Order) : Except Err (Result α) :=
  if needsOrder seed_order neighbor_order && !mutuallyComparable cmp g.nodes then
    .error .notOrderable
  else
    aggLoop cmp (runCompBD cmp g neighbor_order isBFS) seed_order
      (g.nodes.length + 1) g.nodes false

/-- Modelled from the spec (section 6): `bfs(g)` with default policies
(ascending seeds, natural neighbor order). -/
def bfs {α : Type} [DecidableEq α] (cmp : Cmp α) (g : Graph α) : Except Err (Result α) :=
  traverseBD cmp g true (.ord .SORTED) none

/-- Modelled from the spec (section 6): `dfs(g)` with default policies
(ascending seeds, natural neighbor order). -/
def dfs {α : Type} [DecidableEq α] (cmp : Cmp α) (g : Graph α) : Except Err (Result α) :=
  traverseBD cmp g false (.ord .SORTED) none

/-- Translated from `src/analysis/connected_components/connected_components.py`:
the DFS branch unpacks `dfs(g)` and returns its components; the BFS branch
executes `*_, ccs, _ = bfs`, which unpacks the `bfs` function object itself
without calling it and therefore raises `TypeError`; any other traversal kind
raises `ValueError` (the spec's `UnsupportedTraversalKindError`). -/
def get_connected_components {α : Type} [DecidableEq α] (cmp : Cmp α) (g : Graph α)
    (traversal_type : TraversalType) : Except Err (List (List α)) :=
  match traversal_type with
  | .DFS => (dfs cmp g).map Result.ccs
  | .BFS => .error .typeErrorUnpack
  | .other _ => .error .unsupportedTraversalKind

/-- Equality of `Except` values is decidable (used to evaluate the engine on
concrete graphs). -/
instance {ε σ : Type} [DecidableEq ε] [DecidableEq σ] : DecidableEq (Except ε σ)
  | .error a, .error b =>
    if h : a = b then .isTrue (by rw [h]) else .isFalse (fun hh => h (by cases hh; rfl))
  | .error _, .ok _ => .isFalse (fun hh => Except.noConfusion hh)
  | .ok _, .error _ => .isFalse (fun hh => Except.noConfusion hh)
  | .ok a, .ok b =>
    if h : a = b then .isTrue (by rw [h]) else .isFalse (fun hh => h (by cases hh; rfl))

/-! ### Basic lemmas: assoc lists and discovery indices -/

theorem alookup_aset {α β : Type} [DecidableEq α] (l : List (α × β)) (a : α) (b : β) (x : α) :
    alookup (aset l a b) x = if x = a then some b else alookup l x := by
  induction l with
  | nil => by_cases hx : x = a <;> simp [aset, alookup, hx]
  | cons p l ih =>
    obtain ⟨k, v⟩ := p
    by_cases hak : a = k
    · subst hak
      by_cases hx : x = a <;> simp [aset, alookup, hx]
    · by_cases hx : x = k
      · have hxa : ¬ x = a := fun h => hak (h.symm.trans hx)
        simp only [aset, alookup, if_neg hak, if_pos hx, if_neg hxa]
      · simp [aset, alookup, hak, hx, ih]

theorem alookup_append_of_some {α β : Type} [DecidableEq α] {l : List (α × β)} {x : α} {b : β}
    (h : alookup l x = some b) (l' : List (α × β)) :
    alookup (l ++ l') x = some b := by
  induction l with
  | nil => simp [alookup] at h
  | cons p l ih =>
    obtain ⟨k, v⟩ := p
    by_cases hx : x = k
    · simpa [alookup, hx] using (by simpa [alookup, hx] using h)
    · simp only [alookup, if_neg hx, List.cons_append] at h ⊢
      exact ih h

theorem alookup_append_of_none {α β : Type} [DecidableEq α] {l : List (α × β)} {x : α}
    (h : alookup l x = none) (l' : List (α × β)) :
    alookup (l ++ l') x = alookup l' x := by
  induction l with
  | nil => simp
  | cons p l ih =>
    obtain ⟨k, v⟩ := p
    by_cases hx : x = k
    · simp [alookup, hx] at h
    · simp only [alookup, if_neg hx, List.cons_append] at h ⊢
      exact ih h

theorem alookup_isSome_iff_aset {α β : Type} [DecidableEq α] (l : List (α × β)) (a : α) (b : β) (x : α)
    (ha : (alookup l a).isSome) :
    (alookup (aset l a b) x).isSome = (alookup l x).isSome := by
  rw [alookup_aset]
  by_cases hx : x = a
  · subst hx; simp [ha]
  · simp [hx]

theorem idxO_append_of_mem {α : Type} [DecidableEq α] {x : α} {l : List α} (hx : x ∈ l)
    (l' : List α) : idxO x (l ++ l') = idxO x l := by
  induction l with
  | nil => cases hx
  | cons y l ih =>
    by_cases h : x = y
    · simp [idxO, h]
    · rcases List.mem_cons.mp hx with h' | h'
      · exact absurd h' h
      · simp [idxO, h, ih h']

theorem idxO_append_self {α : Type} [DecidableEq α] {v : α} {l : List α} (hv : v ∉ l) :
    idxO v (l ++ [v]) = l.length := by
  induction l with
  | nil => simp [idxO]
  | cons y l ih =>
    have h : v ≠ y := fun h => hv (h ▸ List.mem_cons_self y l)
    simp only [List.cons_append, idxO, if_neg h, List.length_cons]
    rw [List.append_eq, ih (fun h => hv (List.mem_cons_of_mem y h))]

theorem pairwise_idxO {α : Type} [DecidableEq α] {l : List α} (h : l.Nodup) :
    l.Pairwise (fun x y => idxO x l < idxO y l) := by
  induction l with
  | nil => exact List.Pairwise.nil
  | cons a l ih =>
    rw [List.nodup_cons] at h
    constructor
    · intro y hy
      have hya : y ≠ a := fun hya => h.1 (hya ▸ hy)
      simp [idxO, hya]
    · exact (ih h.2).imp_of_mem (fun {x y} hx hy hxy => by
        have hxa : x ≠ a := fun hxa => h.1 (hxa ▸ hx)
        have hya : y ≠ a := fun hya => h.1 (hya ▸ hy)
        simpa [idxO, hxa, hya] using hxy)

/-! ### Heap-pop specification -/

theorem entryLt_irrefl {α : Type} (e : Entry α) : entryLt e e = false := by
  simp [entryLt]

theorem entryLt_ne {α : Type} {a b : Entry α} (h : entryLt a b = true) : a ≠ b := by
  intro hab
  rw [hab, entryLt_irrefl] at h
  cases h

theorem entryLt_asymm {α : Type} {a b : Entry α} (h : entryLt a b = true) : entryLt b a = false := by
  simp only [entryLt, Bool.or_eq_true, Bool.and_eq_true, decide_eq_true_eq] at h ⊢
  rcases h with h | ⟨h₁, h₂⟩
  · simp only [Bool.or_eq_false_iff, Bool.and_eq_false_iff]
    constructor
    · simpa using le_of_lt h
    · left; simpa using ne_of_gt h
  · simp only [Bool.or_eq_false_iff, Bool.and_eq_false_iff]
    constructor
    · simpa [h₁] using le_refl b.1
    · right; simpa using Nat.le_of_lt h₂

theorem entryLt_of_lt_of_not_lt {α : Type} {x e m : Entry α} (h₁ : entryLt x e = true)
    (h₂ : entryLt m e = false) : entryLt x m = true := by
  simp only [entryLt, Bool.or_eq_true, Bool.and_eq_true, decide_eq_true_eq,
    Bool.or_eq_false_iff, Bool.and_eq_false_iff, decide_eq_false_iff_not] at h₁ h₂ ⊢
  rcases h₂ with ⟨h₂₁, h₂₂⟩
  have hem : e.1 < m.1 ∨ (e.1 = m.1 ∧ e.2.1 ≤ m.2.1) := by
    rcases lt_trichotomy e.1 m.1 with h | h | h
    · exact .inl h
    · refine .inr ⟨h, ?_⟩
      rcases h₂₂ with h' | h'
      · exact absurd h.symm h'
      · omega
    · exact absurd h h₂₁
  rcases h₁ with h₁ | ⟨h₁₁, h₁₂⟩
  · rcases hem with h | ⟨h, _⟩
    · exact .inl (h₁.trans h)
    · exact .inl (h ▸ h₁)
  · rcases hem with h | ⟨h, hle⟩
    · exact .inl (h₁₁ ▸ h)
    · exact .inr ⟨h₁₁.trans h, by omega⟩

theorem popMinE_none {α : Type} {h : List (Entry α)} : popMinE h = none ↔ h = [] := by
  cases h with
  | nil => simp [popMinE]
  | cons e es =>
    constructor
    · intro hc
      exfalso
      simp only [popMinE] at hc
      cases hq : popMinE es with
      | none => rw [hq] at hc; cases hc
      | some p =>
        obtain ⟨m, rest⟩ := p
        rw [hq] at hc
        replace hc : (if entryLt m e = true then some (m, e :: rest) else some (e, es)) =
            (none : Option (Entry α × List (Entry α))) := hc
        by_cases hlt : entryLt m e = true
        · rw [if_pos hlt] at hc; cases hc
        · rw [if_neg hlt] at hc; cases hc
    · intro hc; cases hc

theorem popMinE_spec {α : Type} [DecidableEq α] {h : List (Entry α)} {m : Entry α}
    {rest : List (Entry α)} (hp : popMinE h = some (m, rest)) :
    m ∈ h ∧ rest = h.erase m ∧ ∀ e ∈ h, entryLt e m = false := by
  induction h generalizing m rest with
  | nil => cases hp
  | cons e es ih =>
    simp only [popMinE] at hp
    cases hq : popMinE es with
    | none =>
      rw [hq] at hp
      replace hp : some (e, ([] : List (Entry α))) = some (m, rest) := hp
      obtain ⟨rfl, rfl⟩ : e = m ∧ ([] : List (Entry α)) = rest := by
        injection hp with h1
        injection h1 with h2 h3
        exact ⟨h2, h3⟩
      have hes : es = [] := popMinE_none.mp hq
      subst hes
      refine ⟨List.mem_cons_self _ _, by simp, ?_⟩
      intro x hx
      rcases List.mem_cons.mp hx with rfl | hx
      · exact entryLt_irrefl x
      · cases hx
    | some p =>
      obtain ⟨m', rest'⟩ := p
      rw [hq] at hp
      replace hp : (if entryLt m' e = true then some (m', e :: rest') else some (e, es)) =
          some (m, rest) := hp
      obtain ⟨hm', hrest', hmin'⟩ := ih hq
      by_cases hlt : entryLt m' e = true
      · rw [if_pos hlt] at hp
        obtain ⟨rfl, rfl⟩ : m' = m ∧ e :: rest' = rest := by
          injection hp with h1
          injection h1 with h2 h3
          exact ⟨h2, h3⟩
        have hne : e ≠ m' := fun hem => by
          rw [hem, entryLt_irrefl] at hlt; cases hlt
        refine ⟨List.mem_cons_of_mem _ hm', ?_, ?_⟩
        · rw [hrest', List.erase_cons_tail (by simpa using hne)]
        · intro x hx
          rcases List.mem_cons.mp hx with rfl | hx
          · exact entryLt_asymm hlt
          · exact hmin' x hx
      · rw [if_neg hlt] at hp
        obtain ⟨rfl, rfl⟩ : e = m ∧ es = rest := by
          injection hp with h1
          injection h1 with h2 h3
          exact ⟨h2, h3⟩
        refine ⟨List.mem_cons_self _ _, by rw [List.erase_cons_head], ?_⟩
        intro x hx
        rcases List.mem_cons.mp hx with rfl | hx
        · exact entryLt_irrefl x
        · by_contra hxe
          rw [Bool.not_eq_false] at hxe
          have hxm : entryLt x m' = true :=
            entryLt_of_lt_of_not_lt hxe (by simpa using hlt)
          rw [hmin' x hx] at hxm
          cases hxm

/-- An entry is valid when its recorded distance matches the live tentative
distance of its node. -/
def validE {α : Type} [DecidableEq α] (dist : List (α × W)) (e : Entry α) : Bool :=
  decide ((alookup dist e.2.2).getD 0 = e.1)

theorem popValidF_none {α : Type} [DecidableEq α] (dist : List (α × W)) :
    ∀ {fuel : ℕ} {h : List (Entry α)}, h.length ≤ fuel →
    popValidF dist fuel h = none → ∀ e ∈ h, validE dist e = false := by
  intro fuel
  induction fuel with
  | zero =>
    intro h hlen _ e he
    rw [Nat.le_zero, List.length_eq_zero] at hlen
    subst hlen
    cases he
  | succ fuel ih =>
    intro h hlen hnone e he
    simp only [popValidF] at hnone
    cases hq : popMinE h with
    | none =>
      rw [popMinE_none.mp hq] at he
      cases he
    | some p =>
      obtain ⟨m, h'⟩ := p
      rw [hq] at hnone
      obtain ⟨hm, hh', _⟩ := popMinE_spec hq
      replace hnone : (if (alookup dist m.2.2).getD 0 = m.1 then some (m.2.2, h')
          else popValidF dist fuel h') = none := hnone
      by_cases hv : (alookup dist m.2.2).getD 0 = m.1
      · rw [if_pos hv] at hnone; cases hnone
      · rw [if_neg hv] at hnone
        by_cases hem : e = m
        · subst hem
          simpa [validE] using hv
        · have he' : e ∈ h' := by
            rw [hh']
            exact (List.mem_erase_of_ne hem).mpr he
          have hlen' : h'.length ≤ fuel := by
            rw [hh', List.length_erase_of_mem hm] at *
            omega
          exact ih hlen' hnone e he'

theorem popValidF_some {α : Type} [DecidableEq α] (dist : List (α × W)) :
    ∀ {fuel : ℕ} {h h₁ : List (Entry α)} {u : α}, h.length ≤ fuel →
    popValidF dist fuel h = some (u, h₁) →
    ∃ m : Entry α, m ∈ h ∧ validE dist m = true ∧ m.2.2 = u ∧
      (∀ e ∈ h, validE dist e = true → entryLt e m = false) ∧
      h₁.Sublist h ∧
      (∀ e ∈ h, validE dist e = true → e ≠ m → e ∈ h₁) ∧
      h₁.count m < h.count m := by
  intro fuel
  induction fuel with
  | zero =>
    intro h h₁ u hlen hp
    cases hp
  | succ fuel ih =>
    intro h h₁ u hlen hp
    simp only [popValidF] at hp
    cases hq : popMinE h with
    | none =>
      rw [hq] at hp
      cases hp
    | some p =>
      obtain ⟨m₀, h'⟩ := p
      rw [hq] at hp
      obtain ⟨hm₀, hh', hmin₀⟩ := popMinE_spec hq
      replace hp : (if (alookup dist m₀.2.2).getD 0 = m₀.1 then some (m₀.2.2, h')
          else popValidF dist fuel h') = some (u, h₁) := hp
      by_cases hv : (alookup dist m₀.2.2).getD 0 = m₀.1
      · rw [if_pos hv] at hp
        obtain ⟨rfl, rfl⟩ : m₀.2.2 = u ∧ h' = h₁ := by
          injection hp with h1
          injection h1 with h2 h3
          exact ⟨h2, h3⟩
        refine ⟨m₀, hm₀, by simpa [validE] using hv, rfl, ?_, ?_, ?_, ?_⟩
        · intro e he _
          exact hmin₀ e he
        · rw [hh']
          exact List.erase_sublist _ _
        · intro e he _ hem
          rw [hh']
          exact (List.mem_erase_of_ne hem).mpr he
        · rw [hh', List.count_erase_self]
          have : 0 < h.count m₀ := List.count_pos_iff_mem.mpr hm₀
          omega
      · rw [if_neg hv] at hp
        have hlen' : h'.length ≤ fuel := by
          rw [hh', List.length_erase_of_mem hm₀] at *
          omega
        obtain ⟨m, hm, hvm, hnode, hmin, hsub, hkeep, hcnt⟩ := ih hlen' hp
        have hsub' : h'.Sublist h := hh' ▸ List.erase_sublist _ _
        have hmne : ∀ e ∈ h, validE dist e = true → e ≠ m₀ := by
          intro e _ hve hem
          subst hem
          simp [validE, hv] at hve
        refine ⟨m, hsub'.mem hm, hvm, hnode, ?_, hsub.trans hsub', ?_, ?_⟩
        · intro e he hve
          have he' : e ∈ h' := by
            rw [hh']
            exact (List.mem_erase_of_ne (hmne e he hve)).mpr he
          exact hmin e he' hve
        · intro e he hve hem
          have he' : e ∈ h' := by
            rw [hh']
            exact (List.mem_erase_of_ne (hmne e he hve)).mpr he
          exact hkeep e he' hve hem
        · exact lt_of_lt_of_le hcnt (hsub'.count_le m)

/-! ### Array-scan selection characterization -/

theorem pickBy_spec {α : Type} (f : α → W) (R : α → α → Prop)
    (hR : ∀ x y, R x y → R y x → False) (b : α) (l : List α)
    (hpw : (b :: l).Pairwise R) :
    pickBy (fun x y => decide (f x < f y)) b l ∈ b :: l ∧
    (∀ v ∈ b :: l, f (pickBy (fun x y => decide (f x < f y)) b l) ≤ f v) ∧
    (∀ v ∈ b :: l, v ≠ pickBy (fun x y => decide (f x < f y)) b l →
      f (pickBy (fun x y => decide (f x < f y)) b l) < f v ∨
      (f (pickBy (fun x y => decide (f x < f y)) b l) = f v ∧
        R (pickBy (fun x y => decide (f x < f y)) b l) v)) := by
  induction l generalizing b with
  | nil =>
    refine ⟨List.mem_cons_self _ _, ?_, ?_⟩
    · intro v hv
      rcases List.mem_cons.mp hv with rfl | hv
      · simp [pickBy]
      · cases hv
    · intro v hv hne
      rcases List.mem_cons.mp hv with rfl | hv
      · exact absurd (by simp [pickBy]) (Ne.symm hne)
      · cases hv
  | cons x l' ih =>
    have hstep : pickBy (fun x y => decide (f x < f y)) b (x :: l') =
        pickBy (fun x y => decide (f x < f y)) (if f x < f b then x else b) l' := by
      simp only [pickBy, List.foldl_cons]
      by_cases hfxb : f x < f b <;> simp [hfxb]
    set b' := if f x < f b then x else b with hb'
    have hRb : ∀ y ∈ x :: l', R b y := fun y hy => List.rel_of_pairwise_cons hpw hy
    have hRx : ∀ y ∈ l', R x y :=
      fun y hy => List.rel_of_pairwise_cons (List.Pairwise.of_cons hpw) hy
    have hpw' : (b' :: l').Pairwise R := by
      rw [List.pairwise_cons]
      refine ⟨?_, (List.Pairwise.of_cons (List.Pairwise.of_cons hpw))⟩
      intro y hy
      rw [hb']
      by_cases hfxb : f x < f b
      · rw [if_pos hfxb]; exact hRx y hy
      · rw [if_neg hfxb]; exact hRb y (List.mem_cons_of_mem x hy)
    obtain ⟨ihmem, ihle, ihlt⟩ := ih b' hpw'
    rw [hstep]
    set m := pickBy (fun x y => decide (f x < f y)) b' l' with hm
    have hmb' : f m ≤ f b' := ihle b' (List.mem_cons_self _ _)
    have hmem : m ∈ b :: x :: l' := by
      rcases List.mem_cons.mp ihmem with hmb | hmem'
      · rw [hmb, hb']
        by_cases hfxb : f x < f b
        · rw [if_pos hfxb]; exact List.mem_cons_of_mem _ (List.mem_cons_self _ _)
        · rw [if_neg hfxb]; exact List.mem_cons_self _ _
      · exact List.mem_cons_of_mem _ (List.mem_cons_of_mem _ hmem')
    have hcase : ∀ v, v = b ∨ v = x → v ≠ m → f m < f v ∨ (f m = f v ∧ R m v) := by
      intro v hv hvm
      by_cases hfxb : f x < f b
      · -- here b' is x
        have hb'x : b' = x := by rw [hb', if_pos hfxb]
        rcases hv with rfl | rfl
        · -- v is b, the dropped element
          left
          calc f m ≤ f b' := hmb'
            _ = f x := by rw [hb'x]
            _ < f v := hfxb
        · -- v is x, the kept element
          exact ihlt v (by rw [hb'x]; exact List.mem_cons_self _ _) hvm
      · -- here b' is b
        have hb'b : b' = b := by rw [hb', if_neg hfxb]
        rcases hv with rfl | rfl
        · -- v is b, the kept element
          exact ihlt v (by rw [hb'b]; exact List.mem_cons_self _ _) hvm
        · -- v is x, the dropped element
          have hbx : f b ≤ f v := le_of_not_lt hfxb
          have hmb'' : f m ≤ f b := by rw [← hb'b]; exact hmb'
          rcases lt_or_eq_of_le (le_trans hmb'' hbx) with hlt | heq
          · exact .inl hlt
          · -- all tied: m must be b, then R b x applies
            right
            refine ⟨heq, ?_⟩
            have hmb : m = b := by
              by_contra hmb
              have hblt := ihlt b (by rw [hb'b]; exact List.mem_cons_self _ _)
                (fun h => hmb h.symm)
              rcases hblt with hlt' | ⟨_, hRmb⟩
              · have : f b ≤ f m := le_trans hbx (le_of_eq heq.symm)
                exact absurd hlt' (not_lt.mpr this)
              · have hRbm : R b m := by
                  rcases List.mem_cons.mp ihmem with hmb2 | hmem'
                  · exact absurd (hmb2.trans hb'b) hmb
                  · exact hRb m (List.mem_cons_of_mem _ hmem')
                exact hR m b hRmb hRbm
            rw [hmb]
            exact hRb v (List.mem_cons_self _ _)
    refine ⟨hmem, ?_, ?_⟩
    · intro v hv
      rcases List.mem_cons.mp hv with rfl | hv'
      · by_cases hvm : v = m
        · rw [← hvm]
        · rcases hcase v (.inl rfl) hvm with h | ⟨h, _⟩
          · exact le_of_lt h
          · exact le_of_eq h
      · rcases List.mem_cons.mp hv' with rfl | hv''
        · by_cases hvm : v = m
          · rw [← hvm]
          · rcases hcase v (.inr rfl) hvm with h | ⟨h, _⟩
            · exact le_of_lt h
            · exact le_of_eq h
        · exact ihle v (List.mem_cons_of_mem _ hv'')
    · intro v hv hvm
      rcases List.mem_cons.mp hv with rfl | hv'
      · exact hcase v (.inl rfl) hvm
      · rcases List.mem_cons.mp hv' with rfl | hv''
        · exact hcase v (.inr rfl) hvm
        · exact ihlt v (List.mem_cons_of_mem _ hv'') hvm

/-! ### Invariants relating the two Dijkstra strategies -/

/-- Structural invariant of the per-component core state. -/
structure CoreInv {α : Type} [DecidableEq α] (c : Core α) : Prop where
  nodup : c.disc.Nodup
  settled_sub : ∀ v ∈ c.settled, v ∈ c.disc
  keys : ∀ v : α, v ∈ c.disc ↔ (alookup c.dist v).isSome

/-- Invariant of the heap strategy's priority structure relative to the core
state: entries carry the discovery index of their node and a distance no
smaller than the live one; settled nodes have only stale entries; every
discovered-unsettled node has its live entry present, and at most one live
entry exists per node. -/
structure HInv {α : Type} [DecidableEq α] (c : Core α) (h : List (Entry α)) : Prop where
  mem_disc : ∀ e ∈ h, e.2.2 ∈ c.disc
  idx_eq : ∀ e ∈ h, e.2.1 = idxO e.2.2 c.disc
  dist_le : ∀ e ∈ h, distOf c e.2.2 ≤ e.1
  settled_stale : ∀ e ∈ h, e.2.2 ∈ c.settled → distOf c e.2.2 < e.1
  covered : ∀ v ∈ candidates c, (distOf c v, idxO v c.disc, v) ∈ h
  uniq : ∀ v : α, h.countP (fun e => decide (e.2.2 = v) && decide (e.1 = distOf c v)) ≤ 1

theorem mem_candidates {α : Type} [DecidableEq α] {c : Core α} {v : α} :
    v ∈ candidates c ↔ v ∈ c.disc ∧ v ∉ c.settled := by
  simp [candidates, List.mem_filter]

theorem distOf_settle {α : Type} [DecidableEq α] (c : Core α) (u v : α) :
    distOf (settleC c u) v = distOf c v := rfl

theorem idxO_settle {α : Type} [DecidableEq α] (c : Core α) (u v : α) :
    idxO v (settleC c u).disc = idxO v c.disc := rfl

theorem mem_candidates_settle {α : Type} [DecidableEq α] {c : Core α} {u v : α} :
    v ∈ candidates (settleC c u) ↔ v ∈ candidates c ∧ v ≠ u := by
  simp only [mem_candidates, settleC, List.mem_append, List.mem_singleton]
  constructor
  · rintro ⟨hd, hs⟩
    exact ⟨⟨hd, fun hv => hs (.inl hv)⟩, fun hv => hs (.inr hv)⟩
  · rintro ⟨⟨hd, hs⟩, hne⟩
    refine ⟨hd, ?_⟩
    rintro (hv | hv)
    · exact hs hv
    · exact hne hv

theorem scanSelect_none_iff {α : Type} [DecidableEq α] {c : Core α} :
    scanSelect c = none ↔ candidates c = [] := by
  cases hc : candidates c <;> simp [scanSelect, hc]

theorem scanSelect_spec {α : Type} [DecidableEq α] {c : Core α} (hnd : c.disc.Nodup)
    {u : α} (hs : scanSelect c = some u) :
    u ∈ candidates c ∧ (∀ v ∈ candidates c, distOf c u ≤ distOf c v) ∧
    ∀ v ∈ candidates c, v ≠ u → distOf c u < distOf c v ∨
      (distOf c u = distOf c v ∧ idxO u c.disc < idxO v c.disc) := by
  cases hc : candidates c with
  | nil => rw [scanSelect_none_iff.mpr hc] at hs; cases hs
  | cons b l =>
    have hpw : (b :: l).Pairwise (fun x y => idxO x c.disc < idxO y c.disc) := by
      have hall := pairwise_idxO hnd
      have hsub : (b :: l).Sublist c.disc := hc ▸ List.filter_sublist c.disc
      exact List.Pairwise.sublist hsub hall
    obtain ⟨hmem, hle, hlt⟩ := pickBy_spec (distOf c)
      (fun x y => idxO x c.disc < idxO y c.disc) (fun x y hxy hyx => by omega) b l hpw
    have hs' : scanSelect c = some (pickBy (fun x y => decide (distOf c x < distOf c y)) b l) := by
      simp [scanSelect, hc]
    rw [hs'] at hs
    injection hs with hs
    subst hs
    exact ⟨hmem, hle, hlt⟩

theorem count_le_countP_live {α : Type} [DecidableEq α] (h : List (Entry α)) (c : Core α)
    (u : α) (m : Entry α) (hm1 : m.1 = distOf c u) (hm2 : m.2.2 = u) :
    h.count m ≤ h.countP (fun e => decide (e.2.2 = u) && decide (e.1 = distOf c u)) := by
  rw [List.count_eq_countP]
  refine List.countP_mono_left ?_
  intro e _ he
  have : e = m := by simpa using he
  subst this
  simp [hm1, hm2]

/-- Selection equality: on any state satisfying the invariants, the heap pop
(with lazy invalidation) selects exactly the array-scan node, and the
invariant survives into the settled state. -/
theorem select_eq {α : Type} [DecidableEq α] {c : Core α} {h : List (Entry α)}
    (hC : CoreInv c) (hH : HInv c h) :
    (popValidF c.dist h.length h = none → scanSelect c = none) ∧
    (∀ u h₁, popValidF c.dist h.length h = some (u, h₁) →
      scanSelect c = some u ∧ u ∈ candidates c ∧ HInv (settleC c u) h₁) := by
  constructor
  · intro hnone
    rw [scanSelect_none_iff]
    by_contra hne
    obtain ⟨v, hv⟩ := List.exists_mem_of_ne_nil _ hne
    have hcv := hH.covered v hv
    have := popValidF_none c.dist le_rfl hnone _ hcv
    simp [validE, distOf] at this
  · intro u h₁ hp
    obtain ⟨m, hm, hvm, hnode, hmin, hsub, hkeep, hcnt⟩ := popValidF_some c.dist le_rfl hp
    have hm1 : m.1 = distOf c u := by
      have := of_decide_eq_true hvm
      rw [hnode] at this
      exact this.symm
    have hmidx : m.2.1 = idxO u c.disc := by
      have := hH.idx_eq m hm
      rw [hnode] at this
      exact this
    have hum : m = (distOf c u, idxO u c.disc, u) := by
      obtain ⟨m1, m2, m3⟩ := m
      simp only at hm1 hmidx hnode
      rw [hm1, hmidx, hnode]
    have hud : u ∈ c.disc := by
      have := hH.mem_disc m hm
      rw [hnode] at this
      exact this
    have hus : u ∉ c.settled := by
      intro hus
      have := hH.settled_stale m hm (by rw [hnode]; exact hus)
      rw [hnode, hm1] at this
      exact lt_irrefl _ this
    have hucand : u ∈ candidates c := mem_candidates.mpr ⟨hud, hus⟩
    -- the scan picks the same node
    have hsel : scanSelect c = some u := by
      cases hsc : scanSelect c with
      | none =>
        rw [scanSelect_none_iff] at hsc
        rw [hsc] at hucand
        cases hucand
      | some u' =>
        obtain ⟨hmem', hle', hlt'⟩ := scanSelect_spec hC.nodup hsc
        by_cases huu : u' = u
        · rw [huu]
        · have hcu' := hH.covered u' hmem'
          have hvalid' : validE c.dist (distOf c u', idxO u' c.disc, u') = true := by
            simp [validE, distOf]
          have hminu' := hmin _ hcu' hvalid'
          rcases hlt' u hucand (fun h => huu h.symm) with hlt2 | ⟨heq2, hidx2⟩
          · -- scan node strictly closer: its entry beats m, contradiction
            have : entryLt (distOf c u', idxO u' c.disc, u') m = true := by
              simp only [entryLt, hm1, Bool.or_eq_true, decide_eq_true_eq]
              exact .inl hlt2
            rw [hminu'] at this
            cases this
          · have : entryLt (distOf c u', idxO u' c.disc, u') m = true := by
              simp only [entryLt, hm1, hmidx, Bool.or_eq_true, Bool.and_eq_true,
                decide_eq_true_eq]
              exact .inr ⟨heq2, hidx2⟩
            rw [hminu'] at this
            cases this
    refine ⟨hsel, hucand, ?_⟩
    -- the invariant survives settling u and dropping the popped entries
    have hmnot : m ∉ h₁ := by
      intro hmh₁
      have hle1 : h.count m ≤ 1 := le_trans (count_le_countP_live h c u m hm1 hnode) (hH.uniq u)
      have : 0 < h₁.count m := List.count_pos_iff_mem.mpr hmh₁
      omega
    refine ⟨?_, ?_, ?_, ?_, ?_, ?_⟩
    · intro e he
      exact hH.mem_disc e (hsub.subset he)
    · intro e he
      exact hH.idx_eq e (hsub.subset he)
    · intro e he
      exact hH.dist_le e (hsub.subset he)
    · intro e he hes
      rw [distOf_settle]
      rcases List.mem_append.mp hes with hes | hes
      · exact hH.settled_stale e (hsub.subset he) hes
      · have heu : e.2.2 = u := List.mem_singleton.mp hes
        rcases lt_or_eq_of_le (heu ▸ hH.dist_le e (hsub.subset he)) with hlt | heq
        · rw [heu]; exact hlt
        · exfalso
          apply hmnot
          have hei : e.2.1 = idxO u c.disc := by
            have := hH.idx_eq e (hsub.subset he)
            rw [heu] at this
            exact this
          have hem : e = m := by
            rw [hum]
            obtain ⟨e1, e2, e3⟩ := e
            simp only at heu hei heq
            simp only [Prod.mk.injEq]
            exact ⟨heq.symm, hei, heu⟩
          exact hem ▸ he
    · intro v hv
      rw [mem_candidates_settle] at hv
      obtain ⟨hv, hvne⟩ := hv
      have hcv := hH.covered v hv
      have hvalid : validE c.dist (distOf c v, idxO v c.disc, v) = true := by
        simp [validE, distOf]
      have hne : (distOf c v, idxO v c.disc, v) ≠ m := by
        intro hh
        have : v = u := by
          have := congrArg (fun e : Entry α => e.2.2) hh
          simpa [hum] using this
        exact hvne this
      simpa [distOf_settle, idxO_settle] using hkeep _ hcv hvalid hne
    · intro v
      calc h₁.countP _ ≤ h.countP _ := hsub.countP_le _
        _ ≤ 1 := hH.uniq v

/-! ### Preservation of the invariants by relaxation -/

theorem alookup_append_single_ne {α β : Type} [DecidableEq α] (l : List (α × β)) (v : α)
    (d : β) {x : α} (hx : x ≠ v) : alookup (l ++ [(v, d)]) x = alookup l x := by
  cases hb : alookup l x with
  | some b => exact alookup_append_of_some hb _
  | none => rw [alookup_append_of_none hb]; simp [alookup, hx]

theorem alookup_append_single_self {α β : Type} [DecidableEq α] {l : List (α × β)} {v : α}
    (hv : alookup l v = none) (d : β) : alookup (l ++ [(v, d)]) v = some d := by
  rw [alookup_append_of_none hv]; simp [alookup]

theorem settle_coreInv {α : Type} [DecidableEq α] {c : Core α} (hC : CoreInv c) {u : α}
    (hu : u ∈ c.disc) : CoreInv (settleC c u) := by
  refine ⟨hC.nodup, ?_, hC.keys⟩
  intro v hv
  rcases List.mem_append.mp hv with hv | hv
  · exact hC.settled_sub v hv
  · rw [List.mem_singleton.mp hv]; exact hu

theorem relaxOne_pres {α : Type} [DecidableEq α] (u : α) (du : W) {c : Core α}
    {h : List (Entry α)} (hC : CoreInv c) (hH : HInv c h) (vw : α × W) :
    CoreInv (relaxOne u du c vw).1 ∧
    HInv (relaxOne u du c vw).1 (pushE (relaxOne u du c vw).1 (relaxOne u du c vw).2 h) := by
  obtain ⟨v, w⟩ := vw
  by_cases hvs : v ∈ c.settled
  · -- settled neighbor: only the cycle flag may change
    simp only [relaxOne, if_pos hvs, pushE]
    exact ⟨⟨hC.nodup, hC.settled_sub, hC.keys⟩,
      ⟨hH.mem_disc, hH.idx_eq, hH.dist_le, hH.settled_stale, hH.covered, hH.uniq⟩⟩
  · cases hvd : alookup c.dist v with
    | none =>
      -- discovery of a fresh node
      simp only [relaxOne, if_neg hvs, hvd, pushE]
      have hvnd : v ∉ c.disc := by
        intro hv
        have := (hC.keys v).mp hv
        rw [hvd] at this
        cases this
      have hdist_ne : ∀ x : α, x ≠ v →
          distOf (⟨c.parent ++ [(v, some u)], c.dist ++ [(v, du + w)], c.disc ++ [v], c.settled, c.cycle⟩ : Core α) x = distOf c x := by
        intro x hx
        simp only [distOf]
        rw [alookup_append_single_ne _ _ _ hx]
      have hdist_v :
          distOf (⟨c.parent ++ [(v, some u)], c.dist ++ [(v, du + w)], c.disc ++ [v], c.settled, c.cycle⟩ : Core α) v = du + w := by
        simp only [distOf]
        rw [alookup_append_single_self hvd]
        rfl
      have hidx : ∀ x ∈ c.disc, idxO x (c.disc ++ [v]) = idxO x c.disc :=
        fun x hx => idxO_append_of_mem hx _
      have hcand :
          candidates (⟨c.parent ++ [(v, some u)], c.dist ++ [(v, du + w)], c.disc ++ [v], c.settled, c.cycle⟩ : Core α) = candidates c ++ [v] := by
        simp only [candidates, List.filter_append]
        congr 1
        simp [hvs]
      have hne_of_mem : ∀ x : α, x ∈ c.disc → x ≠ v := fun x hx hxv => hvnd (hxv ▸ hx)
      constructor
      · refine ⟨?_, ?_, ?_⟩
        · simp only [List.nodup_append]
          exact ⟨hC.nodup, List.nodup_singleton v, by
            intro x hx hx'
            exact hne_of_mem x hx (List.mem_singleton.mp hx')⟩
        · intro x hx
          exact List.mem_append_left _ (hC.settled_sub x hx)
        · intro x
          by_cases hx : x = v
          · subst hx
            simp only [List.mem_append, List.mem_singleton, or_true, true_iff]
            rw [alookup_append_single_self hvd]
            rfl
          · simp only [List.mem_append, List.mem_singleton, hx, or_false]
            rw [alookup_append_single_ne _ _ _ hx]
            exact hC.keys x
      · constructor
        · intro e he
          rcases List.mem_append.mp he with he | he
          · exact List.mem_append_left _ (hH.mem_disc e he)
          · rw [List.mem_singleton.mp he]
            exact List.mem_append_right _ (List.mem_singleton_self v)
        · intro e he
          rcases List.mem_append.mp he with he | he
          · rw [hH.idx_eq e he, hidx _ (hH.mem_disc e he)]
          · rw [List.mem_singleton.mp he]
        · intro e he
          rcases List.mem_append.mp he with he | he
          · rw [hdist_ne _ (hne_of_mem _ (hH.mem_disc e he))]
            exact hH.dist_le e he
          · rw [List.mem_singleton.mp he]
            simp only
            rw [hdist_v]
        · intro e he hes
          rcases List.mem_append.mp he with he | he
          · rw [hdist_ne _ (hne_of_mem _ (hH.mem_disc e he))]
            exact hH.settled_stale e he hes
          · exfalso
            rw [List.mem_singleton.mp he] at hes
            exact hvs hes
        · intro x hx
          rw [hcand] at hx
          rcases List.mem_append.mp hx with hx | hx
          · have hxv : x ≠ v := hne_of_mem x (mem_candidates.mp hx).1
            rw [hdist_ne _ hxv, hidx _ (mem_candidates.mp hx).1]
            exact List.mem_append_left _ (hH.covered x hx)
          · rw [List.mem_singleton.mp hx, hdist_v]
            exact List.mem_append_right _ (List.mem_singleton_self _)
        · intro x
          rw [List.countP_append]
          by_cases hx : x = v
          · subst hx
            have h0 : h.countP (fun e => decide (e.2.2 = x) && decide (e.1 =
                distOf (⟨c.parent ++ [(x, some u)], c.dist ++ [(x, du + w)], c.disc ++ [x], c.settled, c.cycle⟩ : Core α) x)) = 0 := by
              rw [List.countP_eq_zero]
              intro e he
              simp only [Bool.and_eq_true, decide_eq_true_eq, not_and]
              intro hev _
              exact hvnd (hev ▸ hH.mem_disc e he)
            rw [h0]
            simpa using List.countP_le_length _
          · rw [hdist_ne _ hx]
            have h1 : List.countP (fun e => decide (e.2.2 = x) && decide (e.1 = distOf c x))
                [((du + w : W), idxO v (c.disc ++ [v]), v)] = 0 := by
              simp [hx, Ne.symm hx]
            rw [h1]
            simpa using hH.uniq x
    | some dv =>
      by_cases hlt : du + w < dv
      · -- strict improvement of a discovered node
        simp only [relaxOne, if_neg hvs, hvd, if_pos hlt, pushE]
        have hvdisc : v ∈ c.disc := (hC.keys v).mpr (by rw [hvd]; rfl)
        have hdist_ne : ∀ x : α, x ≠ v →
            distOf (⟨aset c.parent v (some u), aset c.dist v (du + w), c.disc, c.settled, c.cycle⟩ : Core α) x =
            distOf c x := by
          intro x hx
          simp only [distOf]
          rw [alookup_aset, if_neg hx]
        have hdist_v :
            distOf (⟨aset c.parent v (some u), aset c.dist v (du + w), c.disc, c.settled, c.cycle⟩ : Core α) v =
            du + w := by
          simp only [distOf]
          rw [alookup_aset, if_pos rfl]
          rfl
        have hdcv : distOf c v = dv := by simp [distOf, hvd]
        constructor
        · refine ⟨hC.nodup, hC.settled_sub, ?_⟩
          intro x
          rw [alookup_isSome_iff_aset _ _ _ _ (by rw [hvd]; rfl)]
          exact hC.keys x
        · constructor
          · intro e he
            rcases List.mem_append.mp he with he | he
            · exact hH.mem_disc e he
            · rw [List.mem_singleton.mp he]
              exact hvdisc
          · intro e he
            rcases List.mem_append.mp he with he | he
            · exact hH.idx_eq e he
            · rw [List.mem_singleton.mp he]
          · intro e he
            rcases List.mem_append.mp he with he | he
            · by_cases hev : e.2.2 = v
              · rw [hev, hdist_v]
                calc du + w ≤ dv := le_of_lt hlt
                  _ = distOf c v := hdcv.symm
                  _ = distOf c e.2.2 := by rw [hev]
                  _ ≤ e.1 := hH.dist_le e he
              · rw [hdist_ne _ hev]
                exact hH.dist_le e he
            · rw [List.mem_singleton.mp he]
              simp only
              rw [hdist_v]
          · intro e he hes
            rcases List.mem_append.mp he with he | he
            · have hev : e.2.2 ≠ v := fun hev => hvs (hev ▸ hes)
              rw [hdist_ne _ hev]
              exact hH.settled_stale e he hes
            · exfalso
              rw [List.mem_singleton.mp he] at hes
              exact hvs hes
          · intro x hx
            have hx' : x ∈ candidates c := hx
            by_cases hxv : x = v
            · subst hxv
              rw [hdist_v]
              exact List.mem_append_right _ (List.mem_singleton_self _)
            · rw [hdist_ne _ hxv]
              exact List.mem_append_left _ (hH.covered x hx')
          · intro x
            rw [List.countP_append]
            by_cases hx : x = v
            · subst hx
              have h0 : h.countP (fun e => decide (e.2.2 = x) && decide (e.1 =
                  distOf (⟨aset c.parent x (some u), aset c.dist x (du + w), c.disc, c.settled, c.cycle⟩ : Core α) x)) = 0 := by
                rw [List.countP_eq_zero]
                intro e he
                simp only [Bool.and_eq_true, decide_eq_true_eq, not_and]
                intro hev h1
                rw [hdist_v] at h1
                have := hH.dist_le e he
                rw [hev, hdcv] at this
                rw [h1] at this
                exact absurd hlt (not_lt.mpr this)
              rw [h0]
              simpa using List.countP_le_length _
            · rw [hdist_ne _ hx]
              have h1 : List.countP (fun e => decide (e.2.2 = x) && decide (e.1 = distOf c x))
                  [((du + w : W), idxO v c.disc, v)] = 0 := by
                simp [Ne.symm hx]
              rw [h1]
              simpa using hH.uniq x
      · -- no improvement: state unchanged
        simp only [relaxOne, if_neg hvs, hvd, if_neg hlt, pushE]
        exact ⟨hC, hH⟩

theorem relaxH_pres {α : Type} [DecidableEq α] (u : α) (du : W) :
    ∀ (ns : List (α × W)) {c : Core α} {h : List (Entry α)}, CoreInv c → HInv c h →
    CoreInv (relaxH u du (c, h) ns).1 ∧
      HInv (relaxH u du (c, h) ns).1 (relaxH u du (c, h) ns).2 := by
  intro ns
  induction ns with
  | nil =>
    intro c h hC hH
    exact ⟨hC, hH⟩
  | cons vw ns ih =>
    intro c h hC hH
    obtain ⟨hC', hH'⟩ := relaxOne_pres u du hC hH vw
    have hstep : relaxH u du (c, h) (vw :: ns) =
        relaxH u du ((relaxOne u du c vw).1, pushE (relaxOne u du c vw).1
          (relaxOne u du c vw).2 h) ns := by
      simp [relaxH]
    rw [hstep]
    exact ih hC' hH'

theorem relaxH_fst {α : Type} [DecidableEq α] (u : α) (du : W) :
    ∀ (ns : List (α × W)) (c : Core α) (h : List (Entry α)),
    (relaxH u du (c, h) ns).1 = relaxAll u du c ns := by
  intro ns
  induction ns with
  | nil => intro c h; rfl
  | cons vw ns ih =>
    intro c h
    have hstep : relaxH u du (c, h) (vw :: ns) =
        relaxH u du ((relaxOne u du c vw).1, pushE (relaxOne u du c vw).1
          (relaxOne u du c vw).2 h) ns := by
      simp [relaxH]
    rw [hstep, ih]
    rfl

/-- Main simulation: with the invariants, the heap-based loop computes exactly
the array-scan loop's state, for every fuel. -/
theorem loop2_eq_loop1 {α : Type} [DecidableEq α] (cmp : Cmp α) (g : Graph α)
    (np : Option Order) :
    ∀ (fuel : ℕ) {c : Core α} {h : List (Entry α)}, CoreInv c → HInv c h →
    loop2 cmp g np fuel c h = loop1 cmp g np fuel c := by
  intro fuel
  induction fuel with
  | zero => intro c h _ _; rfl
  | succ fuel ih =>
    intro c h hC hH
    obtain ⟨hnone, hsome⟩ := select_eq hC hH
    simp only [loop1, loop2]
    cases hp : popValidF c.dist h.length h with
    | none =>
      rw [hnone hp]
    | some p =>
      obtain ⟨u, h₁⟩ := p
      obtain ⟨hsel, hucand, hH₁⟩ := hsome u h₁ hp
      rw [hsel]
      show (match resolveNbrs cmp np (g.neighbors u) with
            | .error e => (.error e : Except Err (Core α))
            | .ok ns => loop2 cmp g np fuel (relaxH u (distOf c u) (settleC c u, h₁) ns).1
                (relaxH u (distOf c u) (settleC c u, h₁) ns).2) =
          (match resolveNbrs cmp np (g.neighbors u) with
            | .error e => (.error e : Except Err (Core α))
            | .ok ns => loop1 cmp g np fuel (relaxAll u (distOf c u) (settleC c u) ns))
      cases hr : resolveNbrs cmp np (g.neighbors u) with
      | error e => rfl
      | ok ns =>
        have hC₁ : CoreInv (settleC c u) :=
          settle_coreInv hC (mem_candidates.mp hucand).1
        obtain ⟨hC₂, hH₂⟩ := relaxH_pres u (distOf c u) ns hC₁ hH₁
        have hfst := relaxH_fst u (distOf c u) ns (settleC c u) h₁
        show loop2 cmp g np fuel (relaxH u (distOf c u) (settleC c u, h₁) ns).1
            (relaxH u (distOf c u) (settleC c u, h₁) ns).2 =
          loop1 cmp g np fuel (relaxAll u (distOf c u) (settleC c u) ns)
        rw [ih hC₂ hH₂, hfst]

theorem coreInv_init {α : Type} [DecidableEq α] (r : α) : CoreInv (initCore r) := by
  refine ⟨List.nodup_singleton r, ?_, ?_⟩
  · intro v hv
    cases hv
  · intro v
    by_cases hv : v = r <;> simp [initCore, alookup, hv]

theorem hInv_init {α : Type} [DecidableEq α] (r : α) :
    HInv (initCore r) [((0 : W), 0, r)] := by
  have hd : distOf (initCore r) r = 0 := by simp [distOf, initCore, alookup]
  refine ⟨?_, ?_, ?_, ?_, ?_, ?_⟩
  · intro e he
    rw [List.mem_singleton.mp he]
    exact List.mem_singleton_self r
  · intro e he
    rw [List.mem_singleton.mp he]
    simp [initCore, idxO]
  · intro e he
    rw [List.mem_singleton.mp he]
    simp only
    rw [hd]
  · intro e he hes
    rw [List.mem_singleton.mp he] at hes
    cases hes
  · intro v hv
    have : v = r := by
      have := (mem_candidates.mp hv).1
      simpa [initCore] using this
    subst this
    rw [hd]
    simp [initCore, idxO]
  · intro v
    simpa using List.countP_le_length _

/-- The two per-component strategies agree on every root. -/
theorem runComp2_eq_runComp1 {α : Type} [DecidableEq α] (cmp : Cmp α) (g : Graph α)
    (np : Option Order) (r : α) : runComp2 cmp g np r = runComp1 cmp g np r :=
  loop2_eq_loop1 cmp g np (g.nodes.length + 1) (coreInv_init r) (hInv_init r)

theorem aggLoop_congr {α : Type} [DecidableEq α] (cmp : Cmp α)
    (rc₁ rc₂ : α → Except Err (Comp α)) (sp : SeedOrder α)
    (hrc : ∀ s, rc₁ s = rc₂ s) :
    ∀ (fuel : ℕ) (uv : List α) (used : Bool),
    aggLoop cmp rc₁ sp fuel uv used = aggLoop cmp rc₂ sp fuel uv used := by
  intro fuel uv used
  rw [funext hrc]

/-- Central equivalence of the two Dijkstra strategies (helper shared by the
claim theorems). -/
theorem dijkstra_strategies_eq {α : Type} [DecidableEq α] (cmp : Cmp α) (g : Graph α)
    (sp : SeedOrder α) (np : Option Order) :
    dijkstra cmp g true sp np = dijkstra cmp g false sp np := by
  simp only [dijkstra]
  by_cases hcheck : (needsOrder sp np && !mutuallyComparable cmp g.nodes) = true
  · rw [if_pos hcheck, if_pos hcheck]
  · rw [if_neg hcheck, if_neg hcheck]
    exact aggLoop_congr cmp _ _ sp
      (fun s => by
        show Except.map coreToComp (runComp1 cmp g np s) =
          Except.map coreToComp (runComp2 cmp g np s)
        rw [runComp2_eq_runComp1])
      (g.nodes.length + 1) g.nodes false

/-! ### Claim C1 -/

/-- C1: for every input graph and every choice of seed and neighbor ordering,
the array-scan Dijkstra strategy (`use_approach_1 = true`) and the heap-based
strategy (`use_approach_1 = false`) return identical results in all five
output components (parents, distances, order, components, contains_cycle). -/
theorem c1_dijkstra_strategies_equivalent {α : Type} [DecidableEq α] (cmp : Cmp α)
    (g : Graph α) (seed_order : SeedOrder α) (neighbor_order : Option Order) :
    dijkstra cmp g true seed_order neighbor_order =
      dijkstra cmp g false seed_order neighbor_order :=
  dijkstra_strategies_eq cmp g seed_order neighbor_order

/-! ### Claims C2, C3: the connected-components helper -/

/-- C2: the DFS branch of `get_connected_components` runs the DFS traversal
and returns exactly its components list; the BFS branch, contrary to the
claim, never invokes the BFS traversal: already on the one-node graph it
fails with the `TypeError` raised by unpacking the `bfs` function object
(`*_, ccs, _ = bfs` in the source). -/
theorem c2_connected_components_bfs_branch_broken :
    (∀ {α : Type} [DecidableEq α] (cmp : Cmp α) (g : Graph α),
      get_connected_components cmp g .DFS = (dfs cmp g).map Result.ccs) ∧
    get_connected_components cmpN (Graph.ofN 1 []) .BFS = .error .typeErrorUnpack := by
  refine ⟨?_, rfl⟩
  intro α _ cmp g
  rfl

/-- C3: for every graph, calling `get_connected_components` with any traversal
kind other than BFS or DFS fails with `UnsupportedTraversalKindError` (the
`ValueError` of the source, named per the spec's taxonomy). -/
theorem c3_unsupported_traversal_kind {α : Type} [DecidableEq α] (cmp : Cmp α)
    (g : Graph α) (tag : String) :
    get_connected_components cmp g (.other tag) = .error .unsupportedTraversalKind := rfl

/-! ### Claim C4: non-orderable node identities -/

theorem cmpNodeId_irrefl_ne_none (x : NodeId) : cmpNodeId x x ≠ none := by
  cases x <;> simp [cmpNodeId]

theorem cmpNodeId_none_symm {x y : NodeId} (h : cmpNodeId x y = none) :
    cmpNodeId y x = none := by
  cases x <;> cases y <;> simp_all [cmpNodeId]

theorem mutuallyComparable_eq_false {α : Type} (cmp : Cmp α)
    (hsym : ∀ x y, cmp x y = none → cmp y x = none) :
    ∀ {l : List α} {x y : α}, x ∈ l → y ∈ l → x ≠ y → cmp x y = none →
    mutuallyComparable cmp l = false := by
  intro l
  induction l with
  | nil => intro x y hx _ _ _; cases hx
  | cons a l ih =>
    intro x y hx hy hne hxy
    simp only [mutuallyComparable, Bool.and_eq_false_iff]
    rcases List.mem_cons.mp hx with rfl | hx'
    · rcases List.mem_cons.mp hy with rfl | hy'
      · exact absurd rfl hne
      · left
        rw [List.all_eq_false]
        exact ⟨y, hy', by simp [hxy]⟩
    · rcases List.mem_cons.mp hy with rfl | hy'
      · left
        rw [List.all_eq_false]
        exact ⟨x, hx', by simp [hsym _ _ hxy]⟩
      · right
        exact ih hx' hy' hne hxy

/-- C4: on any graph containing two mutually incomparable node identities,
requesting Dijkstra with an ascending (sorted) seed or neighbor ordering
fails with `NotOrderableError`; the orderability check precedes the traversal,
so no traversal state is ever created. -/
theorem c4_not_orderable_ascending (g : Graph NodeId) (b : Bool) (sp : SeedOrder NodeId)
    (np : Option Order) (x y : NodeId) (hx : x ∈ g.nodes) (hy : y ∈ g.nodes)
    (hxy : cmpNodeId x y = none)
    (hreq : sp = .ord .SORTED ∨ np = some .SORTED) :
    dijkstra cmpNodeId g b sp np = .error .notOrderable := by
  have hne : x ≠ y := by
    intro h
    rw [h] at hxy
    exact cmpNodeId_irrefl_ne_none y hxy
  have hmc : mutuallyComparable cmpNodeId g.nodes = false :=
    mutuallyComparable_eq_false cmpNodeId (fun _ _ => cmpNodeId_none_symm) hx hy hne hxy
  have hno : needsOrder sp np = true := by
    rcases hreq with rfl | rfl
    · rfl
    · simp [needsOrder]
  rw [dijkstra, if_pos (by rw [hno, hmc]; rfl)]

/-- Witness for C4 at the test suite's concrete graph
`Graph(nodes=(12, "blah"), edges=((12, "blah"),))`. -/
theorem c4_not_orderable_ascending_witness :
    ((NodeId.int 12 ∈ (Graph.mk [NodeId.int 12, NodeId.str "blah"]
        [(NodeId.int 12, NodeId.str "blah", 1)]).nodes) ∧
      (NodeId.str "blah" ∈ (Graph.mk [NodeId.int 12, NodeId.str "blah"]
        [(NodeId.int 12, NodeId.str "blah", 1)]).nodes) ∧
      cmpNodeId (NodeId.int 12) (NodeId.str "blah") = none) ∧
    dijkstra cmpNodeId (Graph.mk [NodeId.int 12, NodeId.str "blah"]
      [(NodeId.int 12, NodeId.str "blah", 1)]) true (.ord .SORTED) none =
      .error .notOrderable :=
  ⟨⟨by decide, by decide, by decide⟩,
    c4_not_orderable_ascending
      (Graph.mk [NodeId.int 12, NodeId.str "blah"] [(NodeId.int 12, NodeId.str "blah", 1)])
      true (.ord .SORTED) none (NodeId.int 12) (NodeId.str "blah")
      (by decide) (by decide) (by decide) (.inl rfl)⟩

/-! ### Claims C6, C7, C8: concrete Dijkstra runs -/

/-- The 7-node binary tree of the claims (root 0 with children 1, 2; node 1
with children 3, 4; node 2 with children 5, 6), unit weights. -/
def gBin7 : Graph ℕ :=
  Graph.ofN 7 [((0,1),1),((0,2),1),((1,3),1),((1,4),1),((2,5),1),((2,6),1)]

/-- The same tree after raising the weight of edge (0,1) to 2. -/
def gBin7w : Graph ℕ :=
  ⟨List.range 7, [(0,1,2),(0,2,1),(1,3,1),(1,4,1),(2,5,1),(2,6,1)]⟩

/-- Result of ascending Dijkstra on the unit-weight binary tree. -/
def rBin7 : Result ℕ :=
  ⟨[(0,none),(1,some 0),(2,some 0),(3,some 1),(4,some 1),(5,some 2),(6,some 2)],
   [(0,0),(1,1),(2,1),(3,2),(4,2),(5,2),(6,2)], [0,1,2,3,4,5,6], [[0,1,2,3,4,5,6]], false⟩

/-- Result of ascending Dijkstra on the reweighted binary tree. -/
def rBin7w : Result ℕ :=
  ⟨[(0,none),(1,some 0),(2,some 0),(5,some 2),(6,some 2),(3,some 1),(4,some 1)],
   [(0,0),(1,2),(2,1),(5,2),(6,2),(3,3),(4,3)], [0,2,1,5,6,3,4], [[0,2,1,5,6,3,4]], false⟩

/-- C6: on the 7-node binary tree with ascending seed and neighbor order,
raising the weight of edge (0,1) from 1 to 2 changes only the distances of
nodes 1, 3 and 4 (each increased by 1), reorders the settlement order to
`[0,2,1,5,6,3,4]`, and leaves the parents map (as a key-value set) unchanged. -/
theorem c6_binary_tree_weight_change (b : Bool) :
    dijkstra cmpN gBin7 b (.ord .SORTED) (some .SORTED) = .ok rBin7 ∧
    gBin7.set_weight (0, 1) 2 = .ok gBin7w ∧
    dijkstra cmpN gBin7w b (.ord .SORTED) (some .SORTED) = .ok rBin7w ∧
    rBin7w.parents.Perm rBin7.parents ∧
    rBin7w.order = [0, 2, 1, 5, 6, 3, 4] ∧
    alookup rBin7w.dists 1 = (alookup rBin7.dists 1).map (fun d => d + 1) ∧
    alookup rBin7w.dists 3 = (alookup rBin7.dists 3).map (fun d => d + 1) ∧
    alookup rBin7w.dists 4 = (alookup rBin7.dists 4).map (fun d => d + 1) ∧
    alookup rBin7w.dists 0 = alookup rBin7.dists 0 ∧
    alookup rBin7w.dists 2 = alookup rBin7.dists 2 ∧
    alookup rBin7w.dists 5 = alookup rBin7.dists 5 ∧
    alookup rBin7w.dists 6 = alookup rBin7.dists 6 := by
  cases b <;> decide

/-- The weighted 7-node graph of claim C7. -/
def g7C : Graph ℕ :=
  Graph.ofN 7 [((0,1),2),((0,2),1),((1,2),5),((2,4),1),((3,4),2),((3,6),1),
    ((4,5),4),((4,6),5),((5,6),1)]

/-- C7: on the weighted 7-node graph, ascending Dijkstra returns the
distances `{0:0, 1:2, 2:1, 4:2, 3:4, 6:5, 5:6}` (stated as the computed
insertion-ordered map together with its permutation to the claimed listing):
weighted relaxation overrides naive hop distance. -/
theorem c7_weighted_shortest_distances (b : Bool) :
    (dijkstra cmpN g7C b (.ord .SORTED) (some .SORTED)).map Result.dists =
      .ok [(0,0),(1,2),(2,1),(4,2),(3,4),(5,6),(6,5)] ∧
    List.Perm [((0:ℕ),(0:W)),(1,2),(2,1),(4,2),(3,4),(5,6),(6,5)]
      [(0,0),(1,2),(2,1),(4,2),(3,4),(6,5),(5,6)] := by
  cases b <;> decide

/-- The 4-cycle graph 0-1-2-3-0. -/
def gCycle4 : Graph ℕ :=
  Graph.ofN 4 [((0,1),1),((1,2),1),((2,3),1),((3,0),1)]

/-- Result of Dijkstra on the 4-cycle from seed 0. -/
def rCycle4 : Result ℕ :=
  ⟨[(0,none),(1,some 0),(3,some 0),(2,some 1)], [(0,0),(1,1),(3,1),(2,2)],
   [0,1,3,2], [[0,1,3,2]], true⟩

/-- C8: on the 4-cycle, Dijkstra seeded at node 0 (both via the ascending
seed policy and via the explicit seed 0) with ascending neighbor order
reports a cycle, parents `{0:None,1:0,3:0,2:1}` and distances
`{0:0,1:1,3:1,2:2}`; node 1 settles before node 3 and node 2 keeps parent 1
(the equal-cost path via 3 never replaces it). -/
theorem c8_four_cycle (b : Bool) :
    dijkstra cmpN gCycle4 b (.ord .SORTED) (some .SORTED) = .ok rCycle4 ∧
    dijkstra cmpN gCycle4 b (.node 0) (some .SORTED) = .ok rCycle4 := by
  cases b <;> decide

/-! ### Claim C9: set_weight round trip -/

theorem setWeightEdges_roundtrip {α : Type} [DecidableEq α] (a b : α) (w w' : W) :
    ∀ (es : List (α × α × W)), getWeightEdges a b es = some w →
    ∃ es', setWeightEdges a b w' es = some es' ∧ setWeightEdges a b w es' = some es := by
  intro es
  induction es with
  | nil => intro h; cases h
  | cons e rest ih =>
    obtain ⟨x, y, wv⟩ := e
    intro h
    by_cases hm : (x = a ∧ y = b) ∨ (x = b ∧ y = a)
    · have hw : wv = w := by
        simp only [getWeightEdges, if_pos hm] at h
        injection h
      refine ⟨(x, y, w') :: rest, ?_, ?_⟩
      · simp [setWeightEdges, hm]
      · simp [setWeightEdges, hm, hw]
    · simp only [getWeightEdges, if_neg hm] at h
      obtain ⟨es', h₁, h₂⟩ := ih h
      refine ⟨(x, y, wv) :: es', ?_, ?_⟩
      · simp [setWeightEdges, hm, h₁]
      · simp [setWeightEdges, hm, h₂]

/-- C9: reassigning an existing edge's weight and then reassigning it back
restores the graph exactly, so any Dijkstra run after the two reassignments
returns the same five outputs as before them. -/
theorem c9_set_weight_roundtrip {α : Type} [DecidableEq α] (g : Graph α) (e : α × α)
    (w w' : W) (h : g.get_weight e = some w) :
    ((g.set_weight e w').bind (fun g₁ => g₁.set_weight e w)) = .ok g ∧
    ∀ (cmp : Cmp α) (b : Bool) (sp : SeedOrder α) (np : Option Order),
      ((g.set_weight e w').bind (fun g₁ => g₁.set_weight e w)).bind
        (fun g₂ => dijkstra cmp g₂ b sp np) = dijkstra cmp g b sp np := by
  obtain ⟨es', h₁, h₂⟩ := setWeightEdges_roundtrip e.1 e.2 w w' g.edges h
  have hmain : ((g.set_weight e w').bind (fun g₁ => g₁.set_weight e w)) = .ok g := by
    simp only [Graph.set_weight, h₁]
    show Graph.set_weight ⟨g.nodes, es'⟩ e w = .ok g
    simp only [Graph.set_weight, h₂]
  refine ⟨hmain, ?_⟩
  intro cmp b sp np
  rw [hmain]
  rfl

/-- Witness for C9 on the two-node graph with edge (0,1) of weight 1,
reassigned to 5 and back. -/
theorem c9_set_weight_roundtrip_witness :
    (Graph.ofN 2 [((0,1),1)]).get_weight (0, 1) = some 1 ∧
    (((Graph.ofN 2 [((0,1),1)]).set_weight (0, 1) 5).bind
      (fun g₁ => g₁.set_weight (0, 1) 1)) = .ok (Graph.ofN 2 [((0,1),1)]) :=
  ⟨by decide, (c9_set_weight_roundtrip (Graph.ofN 2 [((0,1),1)]) (0, 1) 1 5 (by decide)).1⟩

/-! ### Claim C10: the Graph constructor -/

/-- C10: `Graph(nodes=n, edges=...)` with a non-negative integer `n` produces
node identities exactly `0 .. n-1` (so `Graph(nodes=1)` has the single node
0), and records the given node-pair-to-weight mapping as its edge set. -/
theorem c10_graph_constructor (n : ℕ) (es : List ((ℕ × ℕ) × W)) :
    (Graph.ofN n es).nodes = List.range n ∧
    (Graph.ofN 1 []).nodes = [0] ∧
    (Graph.ofN n es).edges = es.map (fun p => (p.1.1, p.1.2, p.2)) :=
  ⟨rfl, rfl, rfl⟩

/-! ### Claim C5: Dijkstra on a disjoint union of int graphs

`GraphFactory.concat_int_graphs` is not under `src/`; per the test suite
(lines 871-919) it concatenates int graphs, offsetting the second graph's
node identities by the length of the first. -/

/-- Modelled from the spec/test: offset every node identity of an int graph
by `k`. -/
def shiftG (k : ℕ) (g : Graph ℕ) : Graph ℕ :=
  ⟨g.nodes.map (fun v => v + k), g.edges.map (fun e => (e.1 + k, e.2.1 + k, e.2.2))⟩

/-- Modelled from the spec/test: concatenation of two int graphs, the second
offset by the first one's node count. -/
def concat2 (g₁ g₂ : Graph ℕ) : Graph ℕ :=
  ⟨g₁.nodes ++ (shiftG g₁.nodes.length g₂).nodes,
   g₁.edges ++ (shiftG g₁.nodes.length g₂).edges⟩

/-- Modelled from the spec/test: `GraphFactory.concat_int_graphs`. -/
def concat_int_graphs (gs : List (Graph ℕ)) : Graph ℕ :=
  gs.foldl concat2 ⟨[], []⟩

/-- Offset every node identity of a traversal result by `k`. -/
def shiftResult (k : ℕ) (r : Result ℕ) : Result ℕ :=
  ⟨r.parents.map (fun p => (p.1 + k, p.2.map (fun v => v + k))),
   r.dists.map (fun p => (p.1 + k, p.2)),
   r.order.map (fun v => v + k),
   r.ccs.map (List.map (fun v => v + k)),
   r.contains_cycle⟩

/-- Merge two traversal results: plain union of the maps (their key sets are
disjoint), concatenation of orders and component lists, OR of cycle flags. -/
def mergeRes {α : Type} (r₁ r₂ : Result α) : Result α :=
  ⟨r₁.parents ++ r₂.parents, r₁.dists ++ r₂.dists, r₁.order ++ r₂.order,
   r₁.ccs ++ r₂.ccs, r₁.contains_cycle || r₂.contains_cycle⟩

/-- Ascending-order Dijkstra on an int graph (array-scan strategy). -/
def dijkstraN (g : Graph ℕ) : Except Err (Result ℕ) :=
  dijkstra cmpN g true (.ord .SORTED) (some .SORTED)

/-- Value of `dijkstraN` (total on int graphs, see `dijkstraN_ok`). -/
def runN (g : Graph ℕ) : Result ℕ :=
  match dijkstraN g with
  | .ok r => r
  | .error _ => emptyResult

/-- The per-graph results of a disjoint union, merged with cumulative
offsets. -/
def combineResults : ℕ → List (Graph ℕ) → Result ℕ
  | _, [] => emptyResult
  | k, g :: gs => mergeRes (shiftResult k (runN g)) (combineResults (k + g.nodes.length) gs)

/-- Well-formed int graph: node identities are exactly `0 .. n-1` and every
edge endpoint is a node (the spec's graph invariant). -/
def WfN (g : Graph ℕ) : Prop :=
  g.nodes = List.range g.nodes.length ∧ ∀ e ∈ g.edges, e.1 ∈ g.nodes ∧ e.2.1 ∈ g.nodes

instance (g : Graph ℕ) : Decidable (WfN g) := by
  unfold WfN
  infer_instance

/-! #### General lemmas: comparisons, sorting, pickBy -/

theorem cmpN_isSome (a b : ℕ) : (cmpN a b).isSome = true := rfl

theorem mutuallyComparable_cmpN (l : List ℕ) : mutuallyComparable cmpN l = true := by
  induction l with
  | nil => rfl
  | cons x xs ih =>
    simp [mutuallyComparable, ih, cmpN]

theorem cmpN_shift (a b k : ℕ) : cmpN (a + k) (b + k) = cmpN a b := by
  simp only [cmpN, Option.some.injEq]
  rcases Nat.lt_trichotomy a b with h | h | h
  · rw [(Nat.compare_eq_lt).mpr h, (Nat.compare_eq_lt).mpr (by omega)]
  · rw [(Nat.compare_eq_eq).mpr h, (Nat.compare_eq_eq).mpr (by omega)]
  · rw [(Nat.compare_eq_gt).mpr h, (Nat.compare_eq_gt).mpr (by omega)]

theorem cmpN_lt_iff (a b : ℕ) : cmpN a b = some .lt ↔ a < b := by
  simp [cmpN, Nat.compare_eq_lt]

theorem insertLe_perm {α : Type} (le : α → α → Bool) (a : α) (l : List α) :
    (insertLe le a l).Perm (a :: l) := by
  induction l with
  | nil => exact List.Perm.refl _
  | cons b l ih =>
    by_cases h : le a b
    · simp [insertLe, h]
    · simp only [insertLe, if_neg h]
      exact (ih.cons b).trans (List.Perm.swap a b l)

theorem sortLe_perm {α : Type} (le : α → α → Bool) (l : List α) :
    (sortLe le l).Perm l := by
  induction l with
  | nil => exact List.Perm.refl _
  | cons a l ih =>
    exact (insertLe_perm le a (sortLe le l)).trans (ih.cons a)

theorem resolveNbrs_cmpN_ok (np : Option Order) (ns : List (ℕ × W)) :
    ∃ ns', resolveNbrs cmpN np ns = .ok ns' ∧ ns'.Perm ns := by
  cases np with
  | none => exact ⟨ns, rfl, List.Perm.refl _⟩
  | some o =>
    refine ⟨sortLe (nbrLe cmpN o) ns, ?_, sortLe_perm _ _⟩
    simp [resolveNbrs, mutuallyComparable_cmpN]

theorem pickBy_cons {α : Type} (better : α → α → Bool) (b x : α) (l : List α) :
    pickBy better b (x :: l) = pickBy better (if better x b then x else b) l := rfl

theorem pickBy_mem {α : Type} (better : α → α → Bool) (b : α) (l : List α) :
    pickBy better b l ∈ b :: l := by
  induction l generalizing b with
  | nil => exact List.mem_singleton_self b
  | cons x l ih =>
    rw [pickBy_cons]
    by_cases h : better x b
    · rw [if_pos h]
      rcases List.mem_cons.mp (ih x) with h' | h'
      · rw [h']
        exact List.mem_cons_of_mem _ (List.mem_cons_self _ _)
      · exact List.mem_cons_of_mem _ (List.mem_cons_of_mem _ h')
    · rw [if_neg h]
      rcases List.mem_cons.mp (ih b) with h' | h'
      · rw [h']
        exact List.mem_cons_self _ _
      · exact List.mem_cons_of_mem _ (List.mem_cons_of_mem _ h')

theorem pickBy_stay {α : Type} (better : α → α → Bool) (b : α) {l : List α}
    (h : ∀ x ∈ l, better x b = false) : pickBy better b l = b := by
  induction l with
  | nil => rfl
  | cons x l ih =>
    simp only [pickBy, List.foldl_cons, h x (List.mem_cons_self _ _), Bool.false_eq_true,
      if_false]
    exact ih (fun y hy => h y (List.mem_cons_of_mem _ hy))

theorem pickBy_append {α : Type} (better : α → α → Bool) (b : α) (l₁ l₂ : List α) :
    pickBy better b (l₁ ++ l₂) = pickBy better (pickBy better b l₁) l₂ := by
  simp [pickBy, List.foldl_append]

theorem pickBy_map {α β : Type} (better : α → α → Bool) (better' : β → β → Bool)
    (f : α → β) (hcompat : ∀ x y, better' (f x) (f y) = better x y) (b : α) (l : List α) :
    pickBy better' (f b) (l.map f) = f (pickBy better b l) := by
  induction l generalizing b with
  | nil => rfl
  | cons x l ih =>
    simp only [List.map_cons, pickBy, List.foldl_cons, hcompat]
    by_cases h : better x b
    · rw [if_pos h, if_pos h]
      exact ih x
    · rw [if_neg h, if_neg h]
      exact ih b

theorem mergeRes_empty_left {α : Type} (r : Result α) : mergeRes emptyResult r = r := by
  simp [mergeRes, emptyResult]

theorem mergeRes_empty_right {α : Type} (r : Result α) : mergeRes r emptyResult = r := by
  simp [mergeRes, emptyResult]

/-! #### Facts about the per-component loop -/

theorem relaxOne_settled_eq {α : Type} [DecidableEq α] (u : α) (du : W) (c : Core α)
    (vw : α × W) : (relaxOne u du c vw).1.settled = c.settled := by
  obtain ⟨v, w⟩ := vw
  by_cases hvs : v ∈ c.settled
  · simp [relaxOne, hvs]
  · cases hvd : alookup c.dist v with
    | none => simp [relaxOne, hvs, hvd]
    | some dv => by_cases hlt : du + w < dv <;> simp [relaxOne, hvs, hvd, hlt]

theorem relaxAll_settled_eq {α : Type} [DecidableEq α] (u : α) (du : W) :
    ∀ (ns : List (α × W)) (c : Core α), (relaxAll u du c ns).settled = c.settled := by
  intro ns
  induction ns with
  | nil => intro c; rfl
  | cons vw ns ih =>
    intro c
    show (relaxAll u du (relaxOne u du c vw).1 ns).settled = c.settled
    rw [ih, relaxOne_settled_eq]

theorem relaxOne_disc_mem {α : Type} [DecidableEq α] (u : α) (du : W) (c : Core α)
    (vw : α × W) : ∀ x ∈ (relaxOne u du c vw).1.disc, x ∈ c.disc ∨ x = vw.1 := by
  obtain ⟨v, w⟩ := vw
  intro x hx
  by_cases hvs : v ∈ c.settled
  · simp only [relaxOne, if_pos hvs] at hx
    exact .inl hx
  · cases hvd : alookup c.dist v with
    | none =>
      simp only [relaxOne, if_neg hvs, hvd] at hx
      rcases List.mem_append.mp hx with hx | hx
      · exact .inl hx
      · exact .inr (List.mem_singleton.mp hx)
    | some dv =>
      by_cases hlt : du + w < dv
      · simp only [relaxOne, if_neg hvs, hvd, if_pos hlt] at hx
        exact .inl hx
      · simp only [relaxOne, if_neg hvs, hvd, if_neg hlt] at hx
        exact .inl hx

theorem relaxAll_disc_mem {α : Type} [DecidableEq α] (u : α) (du : W) :
    ∀ (ns : List (α × W)) (c : Core α), ∀ x ∈ (relaxAll u du c ns).disc,
    x ∈ c.disc ∨ ∃ p ∈ ns, p.1 = x := by
  intro ns
  induction ns with
  | nil => intro c x hx; exact .inl hx
  | cons vw ns ih =>
    intro c x hx
    have hx' : x ∈ (relaxAll u du (relaxOne u du c vw).1 ns).disc := hx
    rcases ih _ x hx' with hx'' | ⟨p, hp, hpx⟩
    · rcases relaxOne_disc_mem u du c vw x hx'' with h | h
      · exact .inl h
      · exact .inr ⟨vw, List.mem_cons_self _ _, h.symm⟩
    · exact .inr ⟨p, List.mem_cons_of_mem _ hp, hpx⟩

theorem scanSelect_mem {α : Type} [DecidableEq α] {c : Core α} {u : α}
    (hs : scanSelect c = some u) : u ∈ candidates c := by
  cases hc : candidates c with
  | nil => rw [scanSelect_none_iff.mpr hc] at hs; cases hs
  | cons b l =>
    have : scanSelect c = some (pickBy (fun x y => decide (distOf c x < distOf c y)) b l) := by
      simp [scanSelect, hc]
    rw [this] at hs
    injection hs with hs
    rw [← hs]
    exact pickBy_mem _ b l

theorem resolveNbrs_perm {α : Type} {cmp : Cmp α} {np : Option Order} {ns ns' : List (α × W)}
    (h : resolveNbrs cmp np ns = .ok ns') : ns'.Perm ns := by
  cases np with
  | none =>
    injection h with h
    rw [← h]
  | some o =>
    by_cases hmc : mutuallyComparable cmp (ns.map Prod.fst)
    · simp only [resolveNbrs, if_pos hmc] at h
      injection h with h
      rw [← h]
      exact sortLe_perm _ _
    · simp only [resolveNbrs, if_neg hmc] at h
      cases h

theorem neighbors_fst_mem {α : Type} [DecidableEq α] {g : Graph α}
    (hWf : ∀ e ∈ g.edges, e.1 ∈ g.nodes ∧ e.2.1 ∈ g.nodes) (u : α) :
    ∀ p ∈ g.neighbors u, p.1 ∈ g.nodes := by
  intro p hp
  obtain ⟨e, he, hfe⟩ := List.mem_filterMap.mp hp
  by_cases h1 : e.1 = u
  · rw [if_pos h1] at hfe
    injection hfe with hfe
    rw [← hfe]
    exact (hWf e he).2
  · rw [if_neg h1] at hfe
    by_cases h2 : e.2.1 = u
    · rw [if_pos h2] at hfe
      injection hfe with hfe
      rw [← hfe]
      exact (hWf e he).1
    · rw [if_neg h2] at hfe
      cases hfe

/-- Bundle of invariants used for fuel stability of the component loop. -/
structure DInv {α : Type} [DecidableEq α] (g : Graph α) (c : Core α) : Prop where
  core : CoreInv c
  disc_sub : ∀ v ∈ c.disc, v ∈ g.nodes
  settled_nodup : c.settled.Nodup

theorem relaxOne_coreInv {α : Type} [DecidableEq α] (u : α) (du : W) {c : Core α}
    (hC : CoreInv c) (vw : α × W) : CoreInv (relaxOne u du c vw).1 := by
  obtain ⟨v, w⟩ := vw
  by_cases hvs : v ∈ c.settled
  · simp only [relaxOne, if_pos hvs]
    exact ⟨hC.nodup, hC.settled_sub, hC.keys⟩
  · cases hvd : alookup c.dist v with
    | none =>
      simp only [relaxOne, if_neg hvs, hvd]
      have hvnd : v ∉ c.disc := by
        intro hv
        have := (hC.keys v).mp hv
        rw [hvd] at this
        cases this
      refine ⟨?_, ?_, ?_⟩
      · simp only [List.nodup_append]
        exact ⟨hC.nodup, List.nodup_singleton v, by
          intro x hx hx'
          rw [List.mem_singleton.mp hx'] at hx
          exact hvnd hx⟩
      · intro x hx
        exact List.mem_append_left _ (hC.settled_sub x hx)
      · intro x
        by_cases hx : x = v
        · subst hx
          simp only [List.mem_append, List.mem_singleton, or_true, true_iff]
          rw [alookup_append_single_self hvd]
          rfl
        · simp only [List.mem_append, List.mem_singleton, hx, or_false]
          rw [alookup_append_single_ne _ _ _ hx]
          exact hC.keys x
    | some dv =>
      by_cases hlt : du + w < dv
      · simp only [relaxOne, if_neg hvs, hvd, if_pos hlt]
        refine ⟨hC.nodup, hC.settled_sub, ?_⟩
        intro x
        rw [alookup_isSome_iff_aset _ _ _ _ (by rw [hvd]; rfl)]
        exact hC.keys x
      · simp only [relaxOne, if_neg hvs, hvd, if_neg hlt]
        exact hC

theorem relaxAll_coreInv {α : Type} [DecidableEq α] (u : α) (du : W) :
    ∀ (ns : List (α × W)) {c : Core α}, CoreInv c → CoreInv (relaxAll u du c ns) := by
  intro ns
  induction ns with
  | nil => intro c hC; exact hC
  | cons vw ns ih =>
    intro c hC
    exact ih (relaxOne_coreInv u du hC vw)

theorem relaxOne_dinv {α : Type} [DecidableEq α] {g : Graph α} (u : α) (du : W) {c : Core α}
    (hD : DInv g c) (vw : α × W) (hvw : vw.1 ∈ g.nodes) : DInv g (relaxOne u du c vw).1 := by
  refine ⟨relaxOne_coreInv u du hD.core vw, ?_, ?_⟩
  · intro x hx
    rcases relaxOne_disc_mem u du c vw x hx with h | h
    · exact hD.disc_sub x h
    · rw [h]; exact hvw
  · rw [relaxOne_settled_eq]
    exact hD.settled_nodup

theorem relaxAll_dinv {α : Type} [DecidableEq α] {g : Graph α} (u : α) (du : W) :
    ∀ (ns : List (α × W)) {c : Core α}, DInv g c → (∀ p ∈ ns, p.1 ∈ g.nodes) →
    DInv g (relaxAll u du c ns) := by
  intro ns
  induction ns with
  | nil => intro c hD _; exact hD
  | cons vw ns ih =>
    intro c hD hns
    exact ih (relaxOne_dinv u du hD vw (hns vw (List.mem_cons_self _ _)))
      (fun p hp => hns p (List.mem_cons_of_mem _ hp))

theorem settle_dinv {α : Type} [DecidableEq α] {g : Graph α} {c : Core α} (hD : DInv g c)
    {u : α} (hu : u ∈ candidates c) : DInv g (settleC c u) := by
  obtain ⟨hud, hus⟩ := mem_candidates.mp hu
  refine ⟨settle_coreInv hD.core hud, hD.disc_sub, ?_⟩
  simp only [settleC, List.nodup_append]
  exact ⟨hD.settled_nodup, List.nodup_singleton u, by
    intro x hx hx'
    rw [List.mem_singleton.mp hx'] at hx
    exact hus hx⟩

/-- One unfolding step of the array-scan loop preserves the invariant
bundle. -/
theorem step_dinv {α : Type} [DecidableEq α] {cmp : Cmp α} {g : Graph α} {np : Option Order}
    (hWfE : ∀ e ∈ g.edges, e.1 ∈ g.nodes ∧ e.2.1 ∈ g.nodes) {c : Core α} (hD : DInv g c)
    {u : α} (hu : scanSelect c = some u) {ns : List (α × W)}
    (hns : resolveNbrs cmp np (g.neighbors u) = .ok ns) :
    DInv g (relaxAll u (distOf c u) (settleC c u) ns) := by
  refine relaxAll_dinv u (distOf c u) ns (settle_dinv hD (scanSelect_mem hu)) ?_
  intro p hp
  exact neighbors_fst_mem hWfE u p ((resolveNbrs_perm hns).mem_iff.mp hp)

theorem loop1_ok_cmpN (g : Graph ℕ) (np : Option Order) :
    ∀ (fuel : ℕ) (c : Core ℕ), ∃ c', loop1 cmpN g np fuel c = .ok c' := by
  intro fuel
  induction fuel with
  | zero => intro c; exact ⟨c, rfl⟩
  | succ fuel ih =>
    intro c
    cases hs : scanSelect c with
    | none => exact ⟨c, by simp [loop1, hs]⟩
    | some u =>
      obtain ⟨ns, hns, _⟩ := resolveNbrs_cmpN_ok np (g.neighbors u)
      obtain ⟨c', hc'⟩ := ih (relaxAll u (distOf c u) (settleC c u) ns)
      exact ⟨c', by simp [loop1, hs, hns, hc']⟩

theorem loop1_settled_extend {α : Type} [DecidableEq α] (cmp : Cmp α) (g : Graph α)
    (np : Option Order) :
    ∀ (fuel : ℕ) {c c' : Core α}, loop1 cmp g np fuel c = .ok c' →
    ∃ t, c'.settled = c.settled ++ t := by
  intro fuel
  induction fuel with
  | zero =>
    intro c c' h
    injection h with h
    exact ⟨[], by rw [← h, List.append_nil]⟩
  | succ fuel ih =>
    intro c c' h
    cases hs : scanSelect c with
    | none =>
      have hred : loop1 cmp g np (fuel + 1) c = .ok c := by simp [loop1, hs]
      rw [hred] at h
      injection h with h
      exact ⟨[], by rw [← h, List.append_nil]⟩
    | some u =>
      cases hns : resolveNbrs cmp np (g.neighbors u) with
      | error e =>
        have hred : loop1 cmp g np (fuel + 1) c = .error e := by simp [loop1, hs, hns]
        rw [hred] at h
        cases h
      | ok ns =>
        have hred : loop1 cmp g np (fuel + 1) c =
            loop1 cmp g np fuel (relaxAll u (distOf c u) (settleC c u) ns) := by
          simp [loop1, hs, hns]
        rw [hred] at h
        obtain ⟨t, ht⟩ := ih h
        refine ⟨u :: t, ?_⟩
        rw [ht, relaxAll_settled_eq]
        simp [settleC]

theorem loop1_dinv {α : Type} [DecidableEq α] (cmp : Cmp α) (g : Graph α) (np : Option Order)
    (hWfE : ∀ e ∈ g.edges, e.1 ∈ g.nodes ∧ e.2.1 ∈ g.nodes) :
    ∀ (fuel : ℕ) {c c' : Core α}, DInv g c → loop1 cmp g np fuel c = .ok c' → DInv g c' := by
  intro fuel
  induction fuel with
  | zero =>
    intro c c' hD h
    injection h with h
    rw [← h]
    exact hD
  | succ fuel ih =>
    intro c c' hD h
    cases hs : scanSelect c with
    | none =>
      have hred : loop1 cmp g np (fuel + 1) c = .ok c := by simp [loop1, hs]
      rw [hred] at h
      injection h with h
      rw [← h]
      exact hD
    | some u =>
      cases hns : resolveNbrs cmp np (g.neighbors u) with
      | error e =>
        have hred : loop1 cmp g np (fuel + 1) c = .error e := by simp [loop1, hs, hns]
        rw [hred] at h
        cases h
      | ok ns =>
        have hred : loop1 cmp g np (fuel + 1) c =
            loop1 cmp g np fuel (relaxAll u (distOf c u) (settleC c u) ns) := by
          simp [loop1, hs, hns]
        rw [hred] at h
        exact ih (step_dinv hWfE hD hs hns) h

theorem loop1_no_cands {α : Type} [DecidableEq α] (cmp : Cmp α) (g : Graph α)
    (np : Option Order) {c : Core α} (hc : candidates c = []) (fuel : ℕ) :
    loop1 cmp g np fuel c = .ok c := by
  cases fuel with
  | zero => rfl
  | succ fuel => simp [loop1, scanSelect_none_iff.mpr hc]

theorem nodup_length_le_of_subset {α : Type} [DecidableEq α] {l l' : List α}
    (hnd : l.Nodup) (hsub : ∀ x ∈ l, x ∈ l') : l.length ≤ l'.length := by
  calc l.length = l.toFinset.card := (List.toFinset_card_of_nodup hnd).symm
    _ ≤ l'.toFinset.card := Finset.card_le_card (by
        intro x hx
        rw [List.mem_toFinset] at hx
        rw [List.mem_toFinset]
        exact hsub x hx)
    _ ≤ l'.length := l'.toFinset_card_le

/-- When at least `|nodes| - |settled|` fuel is available, extra fuel does not
change the array-scan loop's result. -/
theorem loop1_stable {α : Type} [DecidableEq α] (cmp : Cmp α) (g : Graph α)
    (np : Option Order) (hWfE : ∀ e ∈ g.edges, e.1 ∈ g.nodes ∧ e.2.1 ∈ g.nodes)
    (hgnd : g.nodes.Nodup) :
    ∀ (fuel k : ℕ) (c : Core α), DInv g c → g.nodes.length - c.settled.length ≤ fuel →
    loop1 cmp g np (fuel + k) c = loop1 cmp g np fuel c := by
  intro fuel
  induction fuel with
  | zero =>
    intro k c hD hb
    have hsl : g.nodes.length ≤ c.settled.length := by omega
    have hdl : c.disc.length ≤ g.nodes.length :=
      nodup_length_le_of_subset hD.core.nodup hD.disc_sub
    have hstl : c.settled.length ≤ c.disc.length :=
      nodup_length_le_of_subset hD.settled_nodup hD.core.settled_sub
    have hcard : c.disc.toFinset.card ≤ c.settled.toFinset.card := by
      rw [List.toFinset_card_of_nodup hD.settled_nodup,
        List.toFinset_card_of_nodup hD.core.nodup]
      omega
    have hfs : c.settled.toFinset = c.disc.toFinset := by
      apply Finset.eq_of_subset_of_card_le ?_ hcard
      intro x hx
      rw [List.mem_toFinset] at hx
      rw [List.mem_toFinset]
      exact hD.core.settled_sub x hx
    have hcnone : candidates c = [] := by
      rw [candidates, List.filter_eq_nil]
      intro v hv
      simp only [decide_eq_true_eq, not_not]
      have : v ∈ c.disc.toFinset := List.mem_toFinset.mpr hv
      rw [← hfs] at this
      exact List.mem_toFinset.mp this
    rw [loop1_no_cands cmp g np hcnone, loop1_no_cands cmp g np hcnone]
  | succ fuel ih =>
    intro k c hD hb
    have hfk : fuel + 1 + k = (fuel + k) + 1 := by omega
    rw [hfk]
    cases hs : scanSelect c with
    | none =>
      have h1 : loop1 cmp g np ((fuel + k) + 1) c = .ok c := by simp [loop1, hs]
      have h2 : loop1 cmp g np (fuel + 1) c = .ok c := by simp [loop1, hs]
      rw [h1, h2]
    | some u =>
      cases hns : resolveNbrs cmp np (g.neighbors u) with
      | error e =>
        have h1 : loop1 cmp g np ((fuel + k) + 1) c = .error e := by simp [loop1, hs, hns]
        have h2 : loop1 cmp g np (fuel + 1) c = .error e := by simp [loop1, hs, hns]
        rw [h1, h2]
      | ok ns =>
        have h1 : loop1 cmp g np ((fuel + k) + 1) c =
            loop1 cmp g np (fuel + k) (relaxAll u (distOf c u) (settleC c u) ns) := by
          simp [loop1, hs, hns]
        have h2 : loop1 cmp g np (fuel + 1) c =
            loop1 cmp g np fuel (relaxAll u (distOf c u) (settleC c u) ns) := by
          simp [loop1, hs, hns]
        rw [h1, h2]
        have hD₂ := step_dinv hWfE hD hs hns
        have hlen : (relaxAll u (distOf c u) (settleC c u) ns).settled.length =
            c.settled.length + 1 := by
          rw [relaxAll_settled_eq]
          simp [settleC]
        exact ih k _ hD₂ (by rw [hlen]; omega)

/-- On a set `S` closed under neighbor exploration and where two graphs have
the same adjacency, the array-scan loop behaves identically, and keeps its
discovered set inside `S`. -/
theorem loop1_agree_confine {α : Type} [DecidableEq α] (cmp : Cmp α) (g g' : Graph α)
    (np : Option Order) (S : List α)
    (hagree : ∀ u ∈ S, g.neighbors u = g'.neighbors u)
    (hclosed : ∀ u ∈ S, ∀ p ∈ g.neighbors u, p.1 ∈ S) :
    ∀ (fuel : ℕ) (c : Core α), (∀ v ∈ c.disc, v ∈ S) →
    loop1 cmp g np fuel c = loop1 cmp g' np fuel c ∧
    (∀ c', loop1 cmp g np fuel c = .ok c' → ∀ v ∈ c'.disc, v ∈ S) := by
  intro fuel
  induction fuel with
  | zero =>
    intro c hc
    refine ⟨rfl, ?_⟩
    intro c' h
    injection h with h
    rw [← h]
    exact hc
  | succ fuel ih =>
    intro c hc
    cases hs : scanSelect c with
    | none =>
      have h1 : loop1 cmp g np (fuel + 1) c = .ok c := by simp [loop1, hs]
      have h2 : loop1 cmp g' np (fuel + 1) c = .ok c := by simp [loop1, hs]
      refine ⟨by rw [h1, h2], ?_⟩
      intro c' h
      rw [h1] at h
      injection h with h
      rw [← h]
      exact hc
    | some u =>
      have huS : u ∈ S := hc u (mem_candidates.mp (scanSelect_mem hs)).1
      have hag := hagree u huS
      cases hns : resolveNbrs cmp np (g.neighbors u) with
      | error e =>
        have h1 : loop1 cmp g np (fuel + 1) c = .error e := by simp [loop1, hs, hns]
        have h2 : loop1 cmp g' np (fuel + 1) c = .error e := by
          simp [loop1, hs, ← hag, hns]
        refine ⟨by rw [h1, h2], ?_⟩
        intro c' h
        rw [h1] at h
        cases h
      | ok ns =>
        have h1 : loop1 cmp g np (fuel + 1) c =
            loop1 cmp g np fuel (relaxAll u (distOf c u) (settleC c u) ns) := by
          simp [loop1, hs, hns]
        have h2 : loop1 cmp g' np (fuel + 1) c =
            loop1 cmp g' np fuel (relaxAll u (distOf c u) (settleC c u) ns) := by
          simp [loop1, hs, ← hag, hns]
        have hdisc₂ : ∀ v ∈ (relaxAll u (distOf c u) (settleC c u) ns).disc, v ∈ S := by
          intro v hv
          rcases relaxAll_disc_mem u (distOf c u) ns (settleC c u) v hv with hv' | ⟨p, hp, hpv⟩
          · exact hc v hv'
          · rw [← hpv]
            exact hclosed u huS p ((resolveNbrs_perm hns).mem_iff.mp hp)
        obtain ⟨heq, hconf⟩ := ih _ hdisc₂
        refine ⟨by rw [h1, h2, heq], ?_⟩
        intro c' h
        rw [h1] at h
        exact hconf c' h

/-! #### Shift equivariance of the array-scan engine -/

/-- Offset every node identity of a per-component state by `k`. -/
def shiftCore (k : ℕ) (c : Core ℕ) : Core ℕ :=
  ⟨c.parent.map (fun p => (p.1 + k, p.2.map (fun v => v + k))),
   c.dist.map (fun p => (p.1 + k, p.2)),
   c.disc.map (fun v => v + k), c.settled.map (fun v => v + k), c.cycle⟩

/-- Offset every node identity of a per-component output by `k`. -/
def shiftComp (k : ℕ) (c : Comp ℕ) : Comp ℕ :=
  ⟨c.parent.map (fun p => (p.1 + k, p.2.map (fun v => v + k))),
   c.dist.map (fun p => (p.1 + k, p.2)),
   c.order.map (fun v => v + k), c.cycle⟩

theorem coreToComp_shift (k : ℕ) (c : Core ℕ) :
    coreToComp (shiftCore k c) = shiftComp k (coreToComp c) := rfl

theorem alookup_shift_fst {β : Type} (k : ℕ) :
    ∀ (l : List (ℕ × β)) (x : ℕ),
    alookup (l.map (fun p => (p.1 + k, p.2))) (x + k) = alookup l x := by
  intro l
  induction l with
  | nil => intro x; rfl
  | cons p l ih =>
    intro x
    obtain ⟨a, b⟩ := p
    by_cases h : x = a
    · subst h
      simp [alookup]
    · have h' : ¬(x + k = a + k) := by omega
      simp [alookup, h, h', ih]

theorem alookup_shift_parent (k : ℕ) :
    ∀ (l : List (ℕ × Option ℕ)) (x : ℕ),
    alookup (l.map (fun p => (p.1 + k, p.2.map (fun v => v + k)))) (x + k) =
      (alookup l x).map (Option.map (fun v => v + k)) := by
  intro l
  induction l with
  | nil => intro x; rfl
  | cons p l ih =>
    intro x
    obtain ⟨a, b⟩ := p
    by_cases h : x = a
    · subst h
      simp [alookup]
    · have h' : ¬(x + k = a + k) := by omega
      simp [alookup, h, h', ih]

theorem aset_shift_fst {β : Type} (k : ℕ) :
    ∀ (l : List (ℕ × β)) (x : ℕ) (b : β),
    aset (l.map (fun p => (p.1 + k, p.2))) (x + k) b =
      (aset l x b).map (fun p => (p.1 + k, p.2)) := by
  intro l
  induction l with
  | nil => intro x b; rfl
  | cons p l ih =>
    intro x b
    obtain ⟨a, b'⟩ := p
    by_cases h : x = a
    · subst h
      simp [aset]
    · have h' : ¬(x + k = a + k) := by omega
      simp [aset, h, h', ih]

theorem aset_shift_parent (k : ℕ) :
    ∀ (l : List (ℕ × Option ℕ)) (x : ℕ) (b : Option ℕ),
    aset (l.map (fun p => (p.1 + k, p.2.map (fun v => v + k)))) (x + k)
        (b.map (fun v => v + k)) =
      (aset l x b).map (fun p => (p.1 + k, p.2.map (fun v => v + k))) := by
  intro l
  induction l with
  | nil => intro x b; rfl
  | cons p l ih =>
    intro x b
    obtain ⟨a, b'⟩ := p
    by_cases h : x = a
    · subst h
      simp [aset]
    · have h' : ¬(x + k = a + k) := by omega
      simp [aset, h, h', ih]

theorem mem_shift (k x : ℕ) (l : List ℕ) :
    (x + k ∈ l.map (fun v => v + k)) ↔ x ∈ l := by
  rw [List.mem_map]
  constructor
  · rintro ⟨y, hy, he⟩
    have hxy : y = x := by omega
    rw [← hxy]
    exact hy
  · intro hx
    exact ⟨x, hx, rfl⟩

theorem distOf_shift (k : ℕ) (c : Core ℕ) (v : ℕ) :
    distOf (shiftCore k c) (v + k) = distOf c v := by
  show (alookup (c.dist.map (fun p => (p.1 + k, p.2))) (v + k)).getD 0 = _
  rw [alookup_shift_fst]
  rfl

theorem parentOf_shift (k : ℕ) (c : Core ℕ) (u : ℕ) :
    parentOf (shiftCore k c) (u + k) = (parentOf c u).map (fun v => v + k) := by
  show (alookup (c.parent.map (fun p => (p.1 + k, p.2.map (fun v => v + k)))) (u + k)).getD
      none = ((alookup c.parent u).getD none).map (fun v => v + k)
  rw [alookup_shift_parent]
  cases alookup c.parent u with
  | none => rfl
  | some o => cases o <;> rfl

theorem candidates_shift (k : ℕ) (c : Core ℕ) :
    candidates (shiftCore k c) = (candidates c).map (fun v => v + k) := by
  show (c.disc.map (fun v => v + k)).filter
      (fun v => decide (v ∉ c.settled.map (fun v => v + k))) =
    (c.disc.filter (fun v => decide (v ∉ c.settled))).map (fun v => v + k)
  rw [List.filter_map]
  congr 1
  apply List.filter_congr
  intro x _
  simp only [Function.comp]
  rw [decide_eq_decide]
  exact not_congr (mem_shift k x c.settled)

theorem scanSelect_shift (k : ℕ) (c : Core ℕ) :
    scanSelect (shiftCore k c) = (scanSelect c).map (fun v => v + k) := by
  cases hc : candidates c with
  | nil =>
    have h1 : candidates (shiftCore k c) = [] := by rw [candidates_shift, hc]; rfl
    have h2 : scanSelect (shiftCore k c) = none := by simp [scanSelect, h1]
    have h3 : scanSelect c = none := by simp [scanSelect, hc]
    rw [h2, h3]
    rfl
  | cons v vs =>
    have h1 : scanSelect (shiftCore k c) =
        some (pickBy (fun x y => decide (distOf (shiftCore k c) x < distOf (shiftCore k c) y))
          (v + k) (vs.map (fun v => v + k))) := by
      simp [scanSelect, candidates_shift, hc]
    have h2 : scanSelect c =
        some (pickBy (fun x y => decide (distOf c x < distOf c y)) v vs) := by
      simp [scanSelect, hc]
    rw [h1, h2]
    show some _ = some ((fun v => v + k) (pickBy (fun x y => decide (distOf c x < distOf c y)) v vs))
    congr 1
    exact pickBy_map (fun x y => decide (distOf c x < distOf c y))
      (fun x y => decide (distOf (shiftCore k c) x < distOf (shiftCore k c) y))
      (fun v => v + k)
      (fun x y => by
        show decide (distOf (shiftCore k c) (x + k) < distOf (shiftCore k c) (y + k)) =
          decide (distOf c x < distOf c y)
        rw [distOf_shift, distOf_shift]) v vs

theorem relaxOne_shift (k u : ℕ) (du : W) (c : Core ℕ) (vw : ℕ × W) :
    (relaxOne (u + k) du (shiftCore k c) (vw.1 + k, vw.2)).1 =
      shiftCore k (relaxOne u du c vw).1 := by
  obtain ⟨v, w⟩ := vw
  by_cases hvs : v ∈ c.settled
  · have hvs' : v + k ∈ (shiftCore k c).settled := by
      show v + k ∈ c.settled.map (fun v => v + k)
      rw [mem_shift]
      exact hvs
    have hdec : decide (parentOf (shiftCore k c) (u + k) ≠ some (v + k)) =
        decide (parentOf c u ≠ some v) := by
      rw [decide_eq_decide, parentOf_shift]
      cases parentOf c u with
      | none => simp
      | some p =>
        show ¬(some (p + k) = some (v + k)) ↔ ¬(some p = some v)
        constructor
        · intro h h'
          injection h' with h'
          exact h (by rw [h'])
        · intro h h'
          injection h' with h'
          have hpv : p = v := by omega
          exact h (by rw [hpv])
    have e1 : (relaxOne (u + k) du (shiftCore k c) (v + k, w)).1 =
        (⟨(shiftCore k c).parent, (shiftCore k c).dist, (shiftCore k c).disc,
          (shiftCore k c).settled, (shiftCore k c).cycle ||
          decide (parentOf (shiftCore k c) (u + k) ≠ some (v + k))⟩ : Core ℕ) := by
      simp only [relaxOne, if_pos hvs']
    rw [e1, hdec]
    simp [relaxOne, hvs, shiftCore]
  · have hvs' : v + k ∉ (shiftCore k c).settled := fun h => by
      rw [show (shiftCore k c).settled = c.settled.map (fun v => v + k) from rfl,
        mem_shift] at h
      exact hvs h
    cases hvd : alookup c.dist v with
    | none =>
      have hvd' : alookup (shiftCore k c).dist (v + k) = none := by
        show alookup (c.dist.map (fun p => (p.1 + k, p.2))) (v + k) = none
        rw [alookup_shift_fst, hvd]
      have e1 : (relaxOne (u + k) du (shiftCore k c) (v + k, w)).1 =
          (⟨(shiftCore k c).parent ++ [(v + k, some (u + k))],
            (shiftCore k c).dist ++ [(v + k, du + w)],
            (shiftCore k c).disc ++ [v + k],
            (shiftCore k c).settled, (shiftCore k c).cycle⟩ : Core ℕ) := by
        simp only [relaxOne, if_neg hvs', hvd']
      have e2 : (relaxOne u du c (v, w)).1 =
          (⟨c.parent ++ [(v, some u)], c.dist ++ [(v, du + w)], c.disc ++ [v],
            c.settled, c.cycle⟩ : Core ℕ) := by
        simp only [relaxOne, if_neg hvs, hvd]
      rw [e1, e2]
      simp [shiftCore]
    | some dv =>
      have hvd' : alookup (shiftCore k c).dist (v + k) = some dv := by
        show alookup (c.dist.map (fun p => (p.1 + k, p.2))) (v + k) = some dv
        rw [alookup_shift_fst, hvd]
      by_cases hlt : du + w < dv
      · have e1 : (relaxOne (u + k) du (shiftCore k c) (v + k, w)).1 =
            (⟨aset (shiftCore k c).parent (v + k) (some (u + k)),
              aset (shiftCore k c).dist (v + k) (du + w),
              (shiftCore k c).disc, (shiftCore k c).settled,
              (shiftCore k c).cycle⟩ : Core ℕ) := by
          simp only [relaxOne, if_neg hvs', hvd', if_pos hlt]
        have e2 : (relaxOne u du c (v, w)).1 =
            (⟨aset c.parent v (some u), aset c.dist v (du + w), c.disc,
              c.settled, c.cycle⟩ : Core ℕ) := by
          simp only [relaxOne, if_neg hvs, hvd, if_pos hlt]
        have hd : aset (shiftCore k c).dist (v + k) (du + w) =
            (aset c.dist v (du + w)).map (fun p => (p.1 + k, p.2)) :=
          aset_shift_fst k c.dist v (du + w)
        have hp : aset (shiftCore k c).parent (v + k) (some (u + k)) =
            (aset c.parent v (some u)).map
              (fun p => (p.1 + k, p.2.map (fun v => v + k))) := by
          have h := aset_shift_parent k c.parent v (some u)
          simpa using h
        rw [e1, e2, hd, hp]
        simp [shiftCore]
      · have e1 : (relaxOne (u + k) du (shiftCore k c) (v + k, w)).1 = shiftCore k c := by
          simp only [relaxOne, if_neg hvs', hvd', if_neg hlt]
        have e2 : (relaxOne u du c (v, w)).1 = c := by
          simp only [relaxOne, if_neg hvs, hvd, if_neg hlt]
        rw [e1, e2]

theorem relaxAll_shift (k u : ℕ) (du : W) :
    ∀ (ns : List (ℕ × W)) (c : Core ℕ),
    relaxAll (u + k) du (shiftCore k c) (ns.map (fun p => (p.1 + k, p.2))) =
      shiftCore k (relaxAll u du c ns) := by
  intro ns
  induction ns with
  | nil => intro c; rfl
  | cons vw ns ih =>
    intro c
    show relaxAll (u + k) du (relaxOne (u + k) du (shiftCore k c) (vw.1 + k, vw.2)).1
        (ns.map (fun p => (p.1 + k, p.2))) =
      shiftCore k (relaxAll u du (relaxOne u du c vw).1 ns)
    rw [relaxOne_shift]
    exact ih _

theorem settle_shift (k : ℕ) (c : Core ℕ) (u : ℕ) :
    settleC (shiftCore k c) (u + k) = shiftCore k (settleC c u) := by
  simp [settleC, shiftCore]

theorem neighbors_shift_edges (k u : ℕ) :
    ∀ (es : List (ℕ × ℕ × W)),
    (es.map (fun e => (e.1 + k, e.2.1 + k, e.2.2))).filterMap (fun e =>
        if e.1 = u + k then some (e.2.1, e.2.2)
        else if e.2.1 = u + k then some (e.1, e.2.2) else none) =
      (es.filterMap (fun e =>
        if e.1 = u then some (e.2.1, e.2.2)
        else if e.2.1 = u then some (e.1, e.2.2) else none)).map
        (fun p => (p.1 + k, p.2)) := by
  intro es
  induction es with
  | nil => rfl
  | cons e es ih =>
    obtain ⟨a, b, w⟩ := e
    by_cases h1 : a = u
    · have h1' : a + k = u + k := by omega
      simp [List.filterMap_cons, h1, h1', ih]
    · have h1' : ¬(a + k = u + k) := by omega
      by_cases h2 : b = u
      · have h2' : b + k = u + k := by omega
        simp [List.filterMap_cons, h1, h1', h2, h2', ih]
      · have h2' : ¬(b + k = u + k) := by omega
        simp [List.filterMap_cons, h1, h1', h2, h2', ih]

theorem neighbors_shiftG (k : ℕ) (g : Graph ℕ) (u : ℕ) :
    (shiftG k g).neighbors (u + k) = (g.neighbors u).map (fun p => (p.1 + k, p.2)) :=
  neighbors_shift_edges k u g.edges

theorem nbrLe_shift (k : ℕ) (o : Order) (p q : ℕ × W) :
    nbrLe cmpN o (p.1 + k, p.2) (q.1 + k, q.2) = nbrLe cmpN o p q := by
  cases o <;> simp [nbrLe, cmpN_shift]

theorem insertLe_map {α β : Type} (le : α → α → Bool) (le' : β → β → Bool) (f : α → β)
    (hcompat : ∀ x y, le' (f x) (f y) = le x y) (a : α) :
    ∀ (l : List α), insertLe le' (f a) (l.map f) = (insertLe le a l).map f := by
  intro l
  induction l with
  | nil => rfl
  | cons b l ih =>
    by_cases h : le a b
    · simp [insertLe, hcompat, h]
    · simp [insertLe, hcompat, h, ih]

theorem sortLe_map {α β : Type} (le : α → α → Bool) (le' : β → β → Bool) (f : α → β)
    (hcompat : ∀ x y, le' (f x) (f y) = le x y) :
    ∀ (l : List α), sortLe le' (l.map f) = (sortLe le l).map f := by
  intro l
  induction l with
  | nil => rfl
  | cons a l ih =>
    show insertLe le' (f a) (sortLe le' (l.map f)) = (insertLe le a (sortLe le l)).map f
    rw [ih]
    exact insertLe_map le le' f hcompat a (sortLe le l)

theorem resolveNbrs_shift (k : ℕ) (np : Option Order) (ns : List (ℕ × W)) :
    resolveNbrs cmpN np (ns.map (fun p => (p.1 + k, p.2))) =
      (resolveNbrs cmpN np ns).map (List.map (fun p => (p.1 + k, p.2))) := by
  cases np with
  | none => rfl
  | some o =>
    simp only [resolveNbrs, mutuallyComparable_cmpN, if_pos]
    rw [sortLe_map (nbrLe cmpN o) (nbrLe cmpN o) (fun p => (p.1 + k, p.2))
      (fun x y => nbrLe_shift k o x y) ns]
    rfl

theorem initCore_shift (k r : ℕ) : initCore (r + k) = shiftCore k (initCore r) := by
  simp [initCore, shiftCore]

theorem loop1_shift (k : ℕ) (g : Graph ℕ) (np : Option Order) :
    ∀ (fuel : ℕ) (c : Core ℕ),
    loop1 cmpN (shiftG k g) np fuel (shiftCore k c) =
      (loop1 cmpN g np fuel c).map (shiftCore k) := by
  intro fuel
  induction fuel with
  | zero => intro c; rfl
  | succ fuel ih =>
    intro c
    cases hs : scanSelect c with
    | none =>
      have hs' : scanSelect (shiftCore k c) = none := by rw [scanSelect_shift, hs]; rfl
      have h1 : loop1 cmpN (shiftG k g) np (fuel + 1) (shiftCore k c) =
          .ok (shiftCore k c) := by simp [loop1, hs']
      have h2 : loop1 cmpN g np (fuel + 1) c = .ok c := by simp [loop1, hs]
      rw [h1, h2]
      rfl
    | some u =>
      have hs' : scanSelect (shiftCore k c) = some (u + k) := by
        rw [scanSelect_shift, hs]
        rfl
      obtain ⟨ns, hns, _⟩ := resolveNbrs_cmpN_ok np (g.neighbors u)
      have hns' : resolveNbrs cmpN np ((shiftG k g).neighbors (u + k)) =
          .ok (ns.map (fun p => (p.1 + k, p.2))) := by
        rw [neighbors_shiftG, resolveNbrs_shift, hns]
        rfl
      have h1 : loop1 cmpN (shiftG k g) np (fuel + 1) (shiftCore k c) =
          loop1 cmpN (shiftG k g) np fuel (relaxAll (u + k) (distOf (shiftCore k c) (u + k))
            (settleC (shiftCore k c) (u + k)) (ns.map (fun p => (p.1 + k, p.2)))) := by
        simp [loop1, hs', hns']
      have h2 : loop1 cmpN g np (fuel + 1) c =
          loop1 cmpN g np fuel (relaxAll u (distOf c u) (settleC c u) ns) := by
        simp [loop1, hs, hns]
      rw [h1, h2, distOf_shift, settle_shift, relaxAll_shift]
      exact ih _

theorem runComp1_shift (k : ℕ) (g : Graph ℕ) (np : Option Order) (r : ℕ) :
    runComp1 cmpN (shiftG k g) np (r + k) = (runComp1 cmpN g np r).map (shiftCore k) := by
  show loop1 cmpN (shiftG k g) np ((shiftG k g).nodes.length + 1) (initCore (r + k)) = _
  rw [initCore_shift]
  have hlen : (shiftG k g).nodes.length = g.nodes.length := by simp [shiftG]
  rw [hlen]
  exact loop1_shift k g np (g.nodes.length + 1) (initCore r)

/-! #### Aggregator facts for the ascending seed policy over int graphs -/

theorem resolveSeed_sortedN (used : Bool) (u : ℕ) (us : List ℕ) :
    resolveSeed cmpN (.ord .SORTED) used u us =
      .ok (pickBy (fun x y => decide (cmpN x y = some .lt)) u us) := by
  simp [resolveSeed, mutuallyComparable_cmpN]

theorem aggLoop_used_irrel (rc : ℕ → Except Err (Comp ℕ)) :
    ∀ (fuel : ℕ) (uv : List ℕ) (u₁ u₂ : Bool),
    aggLoop cmpN rc (.ord .SORTED) fuel uv u₁ =
      aggLoop cmpN rc (.ord .SORTED) fuel uv u₂ := by
  intro fuel
  induction fuel with
  | zero => intro uv u₁ u₂; rfl
  | succ fuel ih =>
    intro uv u₁ u₂
    cases uv with
    | nil => rfl
    | cons u us =>
      simp only [aggLoop, resolveSeed_sortedN]

theorem aggLoop_ok_sortedN (rc : ℕ → Except Err (Comp ℕ))
    (hrc : ∀ s, ∃ comp, rc s = .ok comp) :
    ∀ (fuel : ℕ) (uv : List ℕ) (used : Bool),
    ∃ res, aggLoop cmpN rc (.ord .SORTED) fuel uv used = .ok res := by
  intro fuel
  induction fuel with
  | zero => intro uv used; exact ⟨emptyResult, rfl⟩
  | succ fuel ih =>
    intro uv used
    cases uv with
    | nil => exact ⟨emptyResult, rfl⟩
    | cons u us =>
      obtain ⟨comp, hcomp⟩ := hrc (pickBy (fun x y => decide (cmpN x y = some .lt)) u us)
      obtain ⟨rest, hrest⟩ := ih ((u :: us).filter (fun v => !decide (v ∈ comp.order))) true
      exact ⟨⟨comp.parent ++ rest.parents, comp.dist ++ rest.dists,
        comp.order ++ rest.order, comp.order :: rest.ccs,
        comp.cycle || rest.contains_cycle⟩,
        by simp [aggLoop, resolveSeed_sortedN, hcomp, hrest]⟩

theorem runCompDijN_ok (g : Graph ℕ) (s : ℕ) :
    ∃ comp, runCompDij cmpN g (some .SORTED) true s = .ok comp := by
  obtain ⟨c', hc'⟩ := loop1_ok_cmpN g (some .SORTED) (g.nodes.length + 1) (initCore s)
  refine ⟨coreToComp c', ?_⟩
  show Except.map coreToComp
      (loop1 cmpN g (some .SORTED) (g.nodes.length + 1) (initCore s)) =
    .ok (coreToComp c')
  rw [hc']
  rfl

theorem dijkstraN_ok (g : Graph ℕ) : dijkstraN g = .ok (runN g) := by
  have hunf : dijkstraN g = aggLoop cmpN (runCompDij cmpN g (some .SORTED) true)
      (.ord .SORTED) (g.nodes.length + 1) g.nodes false := by
    simp [dijkstraN, dijkstra, mutuallyComparable_cmpN]
  obtain ⟨res, hres⟩ := aggLoop_ok_sortedN _ (runCompDijN_ok g)
    (g.nodes.length + 1) g.nodes false
  have hok : dijkstraN g = .ok res := hunf.trans hres
  rw [hok]
  have hr : runN g = res := by simp [runN, hok]
  rw [hr]

theorem runComp1_seed_mem (g : Graph ℕ) (np : Option Order) (s : ℕ) {c' : Core ℕ}
    (h : runComp1 cmpN g np s = .ok c') : s ∈ c'.settled := by
  have hsel : scanSelect (initCore s) = some s := by
    simp [scanSelect, candidates, initCore, pickBy]
  obtain ⟨ns, hns, _⟩ := resolveNbrs_cmpN_ok np (g.neighbors s)
  have hred : runComp1 cmpN g np s =
      loop1 cmpN g np g.nodes.length
        (relaxAll s (distOf (initCore s) s) (settleC (initCore s) s) ns) := by
    show loop1 cmpN g np (g.nodes.length + 1) (initCore s) = _
    simp [loop1, hsel, hns]
  rw [hred] at h
  obtain ⟨t, ht⟩ := loop1_settled_extend cmpN g np g.nodes.length h
  rw [ht, relaxAll_settled_eq]
  simp [settleC, initCore]

theorem runComp1_order_sub (g : Graph ℕ) (np : Option Order)
    (hWfE : ∀ e ∈ g.edges, e.1 ∈ g.nodes ∧ e.2.1 ∈ g.nodes) {s : ℕ} (hs : s ∈ g.nodes)
    {c' : Core ℕ} (h : runComp1 cmpN g np s = .ok c') : ∀ v ∈ c'.settled, v ∈ g.nodes := by
  have hD : DInv g (initCore s) := by
    refine ⟨coreInv_init s, ?_, List.nodup_nil⟩
    intro v hv
    rw [show (initCore s).disc = [s] from rfl, List.mem_singleton] at hv
    rw [hv]
    exact hs
  have hD' := loop1_dinv cmpN g np hWfE (g.nodes.length + 1) hD h
  intro v hv
  exact hD'.disc_sub v (hD'.core.settled_sub v hv)

theorem aggLoop_stable (rc : ℕ → Except Err (Comp ℕ))
    (hseed : ∀ s comp, rc s = .ok comp → s ∈ comp.order) :
    ∀ (fuel k : ℕ) (uv : List ℕ) (used : Bool), uv.length < fuel →
    aggLoop cmpN rc (.ord .SORTED) (fuel + k) uv used =
      aggLoop cmpN rc (.ord .SORTED) fuel uv used := by
  intro fuel
  induction fuel with
  | zero =>
    intro k uv used hb
    exact absurd hb (Nat.not_lt_zero _)
  | succ fuel ih =>
    intro k uv used hb
    have hfk : fuel + 1 + k = (fuel + k) + 1 := by omega
    cases uv with
    | nil =>
      rw [hfk]
      rfl
    | cons u us =>
      cases hc : rc (pickBy (fun x y => decide (cmpN x y = some .lt)) u us) with
      | error e =>
        have h1 : aggLoop cmpN rc (.ord .SORTED) (fuel + 1 + k) (u :: us) used =
            .error e := by
          rw [hfk]
          simp [aggLoop, resolveSeed_sortedN, hc]
        have h2 : aggLoop cmpN rc (.ord .SORTED) (fuel + 1) (u :: us) used = .error e := by
          simp [aggLoop, resolveSeed_sortedN, hc]
        rw [h1, h2]
      | ok comp =>
        have hsc : pickBy (fun x y => decide (cmpN x y = some .lt)) u us ∈ comp.order :=
          hseed _ comp hc
        have hfl : ((u :: us).filter (fun v => !decide (v ∈ comp.order))).length <
            (u :: us).length := by
          rw [List.length_filter_lt_length_iff_exists]
          exact ⟨pickBy (fun x y => decide (cmpN x y = some .lt)) u us,
            pickBy_mem _ u us, by simp [hsc]⟩
        have hlen' : ((u :: us).filter (fun v => !decide (v ∈ comp.order))).length < fuel := by
          have hl : (u :: us).length = us.length + 1 := rfl
          omega
        have hih := ih k ((u :: us).filter (fun v => !decide (v ∈ comp.order))) true hlen'
        cases hrest : aggLoop cmpN rc (.ord .SORTED) fuel
            ((u :: us).filter (fun v => !decide (v ∈ comp.order))) true with
        | error e =>
          have h1 : aggLoop cmpN rc (.ord .SORTED) (fuel + 1 + k) (u :: us) used =
              .error e := by
            rw [hfk]
            simp [aggLoop, resolveSeed_sortedN, hc, hih, hrest]
          have h2 : aggLoop cmpN rc (.ord .SORTED) (fuel + 1) (u :: us) used =
              .error e := by
            simp [aggLoop, resolveSeed_sortedN, hc, hrest]
          rw [h1, h2]
        | ok rest =>
          have h1 : aggLoop cmpN rc (.ord .SORTED) (fuel + 1 + k) (u :: us) used =
              .ok ⟨comp.parent ++ rest.parents, comp.dist ++ rest.dists,
                comp.order ++ rest.order, comp.order :: rest.ccs,
                comp.cycle || rest.contains_cycle⟩ := by
            rw [hfk]
            simp [aggLoop, resolveSeed_sortedN, hc, hih, hrest]
          have h2 : aggLoop cmpN rc (.ord .SORTED) (fuel + 1) (u :: us) used =
              .ok ⟨comp.parent ++ rest.parents, comp.dist ++ rest.dists,
                comp.order ++ rest.order, comp.order :: rest.ccs,
                comp.cycle || rest.contains_cycle⟩ := by
            simp [aggLoop, resolveSeed_sortedN, hc, hrest]
          rw [h1, h2]

/-! #### Per-component runs on a disjoint concatenation -/

theorem neighbors_concat2_left (g₁ g₂ : Graph ℕ) {u : ℕ} (hu : u < g₁.nodes.length) :
    (concat2 g₁ g₂).neighbors u = g₁.neighbors u := by
  show (g₁.edges ++ (shiftG g₁.nodes.length g₂).edges).filterMap (fun e =>
      if e.1 = u then some (e.2.1, e.2.2)
      else if e.2.1 = u then some (e.1, e.2.2) else none) = g₁.neighbors u
  rw [List.filterMap_append]
  have h2 : ((shiftG g₁.nodes.length g₂).edges).filterMap (fun e =>
      if e.1 = u then some (e.2.1, e.2.2)
      else if e.2.1 = u then some (e.1, e.2.2) else none) = [] := by
    rw [List.filterMap_eq_nil]
    intro e he
    obtain ⟨e₀, he₀, hsh⟩ := List.mem_map.mp he
    rw [← hsh]
    have hne1 : ¬(e₀.1 + g₁.nodes.length = u) := by omega
    have hne2 : ¬(e₀.2.1 + g₁.nodes.length = u) := by omega
    simp [hne1, hne2]
  rw [h2, List.append_nil]
  rfl

theorem neighbors_concat2_right (g₁ g₂ : Graph ℕ) (hWf₁ : WfN g₁) (u : ℕ) :
    (concat2 g₁ g₂).neighbors (u + g₁.nodes.length) =
      (g₂.neighbors u).map (fun p => (p.1 + g₁.nodes.length, p.2)) := by
  have h1 : (g₁.edges).filterMap (fun e =>
      if e.1 = u + g₁.nodes.length then some (e.2.1, e.2.2)
      else if e.2.1 = u + g₁.nodes.length then some (e.1, e.2.2) else none) = [] := by
    rw [List.filterMap_eq_nil]
    intro e he
    obtain ⟨hm1, hm2⟩ := hWf₁.2 e he
    rw [hWf₁.1] at hm1 hm2
    have hlt1 : e.1 < g₁.nodes.length := List.mem_range.mp hm1
    have hlt2 : e.2.1 < g₁.nodes.length := List.mem_range.mp hm2
    have hne1 : ¬(e.1 = u + g₁.nodes.length) := by omega
    have hne2 : ¬(e.2.1 = u + g₁.nodes.length) := by omega
    simp [hne1, hne2]
  show (g₁.edges ++ (shiftG g₁.nodes.length g₂).edges).filterMap (fun e =>
      if e.1 = u + g₁.nodes.length then some (e.2.1, e.2.2)
      else if e.2.1 = u + g₁.nodes.length then some (e.1, e.2.2) else none) = _
  rw [List.filterMap_append, h1, List.nil_append]
  exact neighbors_shiftG g₁.nodes.length g₂ u

theorem runComp1_concat2_left (g₁ g₂ : Graph ℕ) (np : Option Order) (hWf₁ : WfN g₁)
    {r : ℕ} (hr : r ∈ g₁.nodes) :
    runComp1 cmpN (concat2 g₁ g₂) np r = runComp1 cmpN g₁ np r := by
  have hagree : ∀ u ∈ g₁.nodes, (concat2 g₁ g₂).neighbors u = g₁.neighbors u := by
    intro u hu
    have hu' : u < g₁.nodes.length := by
      rw [hWf₁.1] at hu
      exact List.mem_range.mp hu
    exact neighbors_concat2_left g₁ g₂ hu'
  have hclosed : ∀ u ∈ g₁.nodes, ∀ p ∈ (concat2 g₁ g₂).neighbors u, p.1 ∈ g₁.nodes := by
    intro u hu p hp
    rw [hagree u hu] at hp
    exact neighbors_fst_mem hWf₁.2 u p hp
  have hinit : ∀ v ∈ (initCore r).disc, v ∈ g₁.nodes := by
    intro v hv
    rw [show (initCore r).disc = [r] from rfl, List.mem_singleton] at hv
    rw [hv]
    exact hr
  have hG := loop1_agree_confine cmpN (concat2 g₁ g₂) g₁ np g₁.nodes hagree hclosed
    ((concat2 g₁ g₂).nodes.length + 1) (initCore r) hinit
  show loop1 cmpN (concat2 g₁ g₂) np ((concat2 g₁ g₂).nodes.length + 1) (initCore r) = _
  rw [hG.1]
  have hD : DInv g₁ (initCore r) := ⟨coreInv_init r, hinit, List.nodup_nil⟩
  have hnd : g₁.nodes.Nodup := by
    rw [hWf₁.1]
    exact List.nodup_range _
  have hstab := loop1_stable cmpN g₁ np hWf₁.2 hnd (g₁.nodes.length + 1) g₂.nodes.length
    (initCore r) hD (by show g₁.nodes.length - 0 ≤ g₁.nodes.length + 1; omega)
  have harith : (concat2 g₁ g₂).nodes.length + 1 =
      g₁.nodes.length + 1 + g₂.nodes.length := by
    have hlen : (concat2 g₁ g₂).nodes.length = g₁.nodes.length + g₂.nodes.length := by
      simp [concat2, shiftG]
    omega
  rw [harith, hstab]
  rfl

theorem runComp1_concat2_right (g₁ g₂ : Graph ℕ) (np : Option Order) (hWf₁ : WfN g₁)
    (hWf₂ : WfN g₂) {r : ℕ} (hr : r ∈ g₂.nodes) :
    runComp1 cmpN (concat2 g₁ g₂) np (r + g₁.nodes.length) =
      (runComp1 cmpN g₂ np r).map (shiftCore g₁.nodes.length) := by
  have hagree : ∀ u ∈ g₂.nodes.map (fun v => v + g₁.nodes.length),
      (concat2 g₁ g₂).neighbors u = (shiftG g₁.nodes.length g₂).neighbors u := by
    intro u hu
    obtain ⟨u₀, hu₀, rfl⟩ := List.mem_map.mp hu
    rw [neighbors_concat2_right g₁ g₂ hWf₁ u₀, neighbors_shiftG]
  have hclosed : ∀ u ∈ g₂.nodes.map (fun v => v + g₁.nodes.length),
      ∀ p ∈ (concat2 g₁ g₂).neighbors u,
      p.1 ∈ g₂.nodes.map (fun v => v + g₁.nodes.length) := by
    intro u hu p hp
    obtain ⟨u₀, hu₀, rfl⟩ := List.mem_map.mp hu
    rw [neighbors_concat2_right g₁ g₂ hWf₁ u₀] at hp
    obtain ⟨q, hq, rfl⟩ := List.mem_map.mp hp
    exact List.mem_map.mpr ⟨q.1, neighbors_fst_mem hWf₂.2 u₀ q hq, rfl⟩
  have hinit : ∀ v ∈ (initCore (r + g₁.nodes.length)).disc,
      v ∈ g₂.nodes.map (fun v => v + g₁.nodes.length) := by
    intro v hv
    rw [show (initCore (r + g₁.nodes.length)).disc = [r + g₁.nodes.length] from rfl,
      List.mem_singleton] at hv
    rw [hv]
    exact List.mem_map.mpr ⟨r, hr, rfl⟩
  have hG := loop1_agree_confine cmpN (concat2 g₁ g₂) (shiftG g₁.nodes.length g₂) np
    (g₂.nodes.map (fun v => v + g₁.nodes.length)) hagree hclosed
    ((concat2 g₁ g₂).nodes.length + 1) (initCore (r + g₁.nodes.length)) hinit
  show loop1 cmpN (concat2 g₁ g₂) np ((concat2 g₁ g₂).nodes.length + 1)
      (initCore (r + g₁.nodes.length)) = _
  rw [hG.1, initCore_shift, loop1_shift]
  have hD : DInv g₂ (initCore r) := by
    refine ⟨coreInv_init r, ?_, List.nodup_nil⟩
    intro v hv
    rw [show (initCore r).disc = [r] from rfl, List.mem_singleton] at hv
    rw [hv]
    exact hr
  have hnd : g₂.nodes.Nodup := by
    rw [hWf₂.1]
    exact List.nodup_range _
  have hstab := loop1_stable cmpN g₂ np hWf₂.2 hnd (g₂.nodes.length + 1) g₁.nodes.length
    (initCore r) hD (by show g₂.nodes.length - 0 ≤ g₂.nodes.length + 1; omega)
  have harith : (concat2 g₁ g₂).nodes.length + 1 =
      g₂.nodes.length + 1 + g₁.nodes.length := by
    have hlen : (concat2 g₁ g₂).nodes.length = g₁.nodes.length + g₂.nodes.length := by
      simp [concat2, shiftG]
    omega
  rw [harith, hstab]
  rfl

theorem runCompDij_concat2_left (g₁ g₂ : Graph ℕ) (hWf₁ : WfN g₁) {r : ℕ}
    (hr : r ∈ g₁.nodes) :
    runCompDij cmpN (concat2 g₁ g₂) (some .SORTED) true r =
      runCompDij cmpN g₁ (some .SORTED) true r := by
  show (runComp1 cmpN (concat2 g₁ g₂) (some .SORTED) r).map coreToComp = _
  rw [runComp1_concat2_left g₁ g₂ (some .SORTED) hWf₁ hr]
  rfl

theorem runCompDij_concat2_right (g₁ g₂ : Graph ℕ) (hWf₁ : WfN g₁) (hWf₂ : WfN g₂)
    {r : ℕ} (hr : r ∈ g₂.nodes) :
    runCompDij cmpN (concat2 g₁ g₂) (some .SORTED) true (r + g₁.nodes.length) =
      (runCompDij cmpN g₂ (some .SORTED) true r).map (shiftComp g₁.nodes.length) := by
  show (runComp1 cmpN (concat2 g₁ g₂) (some .SORTED) (r + g₁.nodes.length)).map coreToComp =
    ((runComp1 cmpN g₂ (some .SORTED) r).map coreToComp).map (shiftComp g₁.nodes.length)
  rw [runComp1_concat2_right g₁ g₂ (some .SORTED) hWf₁ hWf₂ hr]
  cases runComp1 cmpN g₂ (some .SORTED) r with
  | error e => rfl
  | ok c =>
    show Except.ok (coreToComp (shiftCore g₁.nodes.length c)) =
      Except.ok (shiftComp g₁.nodes.length (coreToComp c))
    rw [coreToComp_shift]

theorem filter_not_mem_shift (k : ℕ) (ord : List ℕ) :
    ∀ (l : List ℕ),
    (l.map (fun v => v + k)).filter (fun v => decide (v ∉ ord.map (fun v => v + k))) =
      (l.filter (fun v => decide (v ∉ ord))).map (fun v => v + k) := by
  intro l
  rw [List.filter_map]
  congr 1
  apply List.filter_congr
  intro x _
  simp only [Function.comp]
  rw [decide_eq_decide]
  exact not_congr (mem_shift k x ord)

/-- Phase 2 of the disjoint-union aggregator: over the offset copies of the
second graph's nodes, the aggregator on the concatenation is the shifted
aggregator of the second graph alone. -/
theorem aggLoop_shift_phase (g₁ g₂ : Graph ℕ) (hWf₁ : WfN g₁) (hWf₂ : WfN g₂) :
    ∀ (fuel : ℕ) (uv₂ : List ℕ) (used : Bool), (∀ v ∈ uv₂, v ∈ g₂.nodes) →
    aggLoop cmpN (runCompDij cmpN (concat2 g₁ g₂) (some .SORTED) true) (.ord .SORTED) fuel
        (uv₂.map (fun v => v + g₁.nodes.length)) used =
      (aggLoop cmpN (runCompDij cmpN g₂ (some .SORTED) true) (.ord .SORTED) fuel uv₂
        used).map (shiftResult g₁.nodes.length) := by
  intro fuel
  induction fuel with
  | zero => intro uv₂ used hsub; rfl
  | succ fuel ih =>
    intro uv₂ used hsub
    cases uv₂ with
    | nil => rfl
    | cons u us =>
      have hpick : pickBy (fun x y => decide (cmpN x y = some .lt)) (u + g₁.nodes.length)
          (us.map (fun v => v + g₁.nodes.length)) =
          pickBy (fun x y => decide (cmpN x y = some .lt)) u us + g₁.nodes.length :=
        pickBy_map (fun x y => decide (cmpN x y = some .lt))
          (fun x y => decide (cmpN x y = some .lt)) (fun v => v + g₁.nodes.length)
          (fun x y => by
            show decide (cmpN (x + g₁.nodes.length) (y + g₁.nodes.length) = some .lt) =
              decide (cmpN x y = some .lt)
            rw [cmpN_shift]) u us
      have hseed₂ : pickBy (fun x y => decide (cmpN x y = some .lt)) u us ∈ g₂.nodes :=
        hsub _ (pickBy_mem _ u us)
      cases hc : runCompDij cmpN g₂ (some .SORTED) true
          (pickBy (fun x y => decide (cmpN x y = some .lt)) u us) with
      | error e =>
        have hcG : runCompDij cmpN (concat2 g₁ g₂) (some .SORTED) true
            (pickBy (fun x y => decide (cmpN x y = some .lt)) u us + g₁.nodes.length) =
            .error e := by
          rw [runCompDij_concat2_right g₁ g₂ hWf₁ hWf₂ hseed₂, hc]
          rfl
        simp only [List.map_cons, aggLoop, resolveSeed_sortedN, hpick, hcG, hc]
        rfl
      | ok comp =>
        have hcG : runCompDij cmpN (concat2 g₁ g₂) (some .SORTED) true
            (pickBy (fun x y => decide (cmpN x y = some .lt)) u us + g₁.nodes.length) =
            .ok (shiftComp g₁.nodes.length comp) := by
          rw [runCompDij_concat2_right g₁ g₂ hWf₁ hWf₂ hseed₂, hc]
          rfl
        have hfilter : ((u + g₁.nodes.length) :: us.map (fun v => v + g₁.nodes.length)).filter
            (fun v => decide (v ∉ (shiftComp g₁.nodes.length comp).order)) =
            ((u :: us).filter (fun v => decide (v ∉ comp.order))).map
              (fun v => v + g₁.nodes.length) := by
          show ((u :: us).map (fun v => v + g₁.nodes.length)).filter
              (fun v => decide (v ∉ comp.order.map (fun v => v + g₁.nodes.length))) = _
          exact filter_not_mem_shift g₁.nodes.length comp.order (u :: us)
        have hsub' : ∀ v ∈ (u :: us).filter (fun v => decide (v ∉ comp.order)),
            v ∈ g₂.nodes := fun v hv => hsub v (List.mem_of_mem_filter hv)
        have hih := ih ((u :: us).filter (fun v => decide (v ∉ comp.order))) true hsub'
        cases hrest : aggLoop cmpN (runCompDij cmpN g₂ (some .SORTED) true) (.ord .SORTED)
            fuel ((u :: us).filter (fun v => decide (v ∉ comp.order))) true with
        | error e =>
          simp only [List.map_cons, aggLoop, resolveSeed_sortedN, hpick, hcG, hc,
            hfilter, hih, hrest]
          rfl
        | ok rest =>
          simp only [List.map_cons, aggLoop, resolveSeed_sortedN, hpick, hcG, hc,
            hfilter, hih, hrest]
          show Except.ok _ = Except.ok _
          congr 1
          simp [shiftResult, shiftComp]

/-- Phase 1 of the disjoint-union aggregator: as long as unvisited low-block
nodes remain, the ascending seed policy picks them first, their components
stay in the low block, and the offset block is left untouched. -/
theorem aggLoop_prefix_split (rcA rcB : ℕ → Except Err (Comp ℕ)) (m : ℕ) (offs : List ℕ)
    (hoffs : ∀ x ∈ offs, m ≤ x)
    (hAB : ∀ s < m, rcA s = rcB s)
    (hord : ∀ s comp, s < m → rcB s = .ok comp → ∀ v ∈ comp.order, v < m)
    (hseedA : ∀ s comp, rcA s = .ok comp → s ∈ comp.order) :
    ∀ (fuel : ℕ) (uv₁ : List ℕ) (used : Bool), (∀ v ∈ uv₁, v < m) →
    uv₁.length + offs.length < fuel →
    aggLoop cmpN rcA (.ord .SORTED) fuel (uv₁ ++ offs) used =
      (aggLoop cmpN rcB (.ord .SORTED) fuel uv₁ used).bind (fun r₁ =>
        (aggLoop cmpN rcA (.ord .SORTED) (offs.length + 1) offs true).map
          (fun r₂ => mergeRes r₁ r₂)) := by
  intro fuel
  induction fuel with
  | zero =>
    intro uv₁ used hsub hfl
    exact absurd hfl (Nat.not_lt_zero _)
  | succ fuel ih =>
    intro uv₁ used hsub hfl
    cases uv₁ with
    | nil =>
      have hstab : aggLoop cmpN rcA (.ord .SORTED) (fuel + 1) offs used =
          aggLoop cmpN rcA (.ord .SORTED) (offs.length + 1) offs used := by
        obtain ⟨k, hk⟩ : ∃ k, fuel + 1 = (offs.length + 1) + k := by
          refine ⟨fuel - offs.length, ?_⟩
          simp only [List.length_nil, Nat.zero_add] at hfl
          omega
        rw [hk]
        exact aggLoop_stable rcA hseedA (offs.length + 1) k offs used (by omega)
      show aggLoop cmpN rcA (.ord .SORTED) (fuel + 1) ([] ++ offs) used = _
      rw [List.nil_append, hstab,
        aggLoop_used_irrel rcA (offs.length + 1) offs used true]
      show aggLoop cmpN rcA (.ord .SORTED) (offs.length + 1) offs true =
        (Except.ok emptyResult).bind (fun r₁ =>
          (aggLoop cmpN rcA (.ord .SORTED) (offs.length + 1) offs true).map
            (fun r₂ => mergeRes r₁ r₂))
      cases hp : aggLoop cmpN rcA (.ord .SORTED) (offs.length + 1) offs true with
      | error e => rfl
      | ok r₂ =>
        show Except.ok r₂ = Except.ok (mergeRes emptyResult r₂)
        rw [mergeRes_empty_left]
    | cons u us =>
      have hsA : pickBy (fun x y => decide (cmpN x y = some .lt)) u (us ++ offs) =
          pickBy (fun x y => decide (cmpN x y = some .lt)) u us := by
        rw [pickBy_append]
        apply pickBy_stay
        intro x hx
        have hx' : m ≤ x := hoffs x hx
        have hlt : pickBy (fun x y => decide (cmpN x y = some .lt)) u us < m :=
          hsub _ (pickBy_mem _ u us)
        have hnlt : ¬(cmpN x (pickBy (fun x y => decide (cmpN x y = some .lt)) u us) =
            some .lt) := by
          rw [cmpN_lt_iff]
          omega
        exact decide_eq_false hnlt
      have hseedlt : pickBy (fun x y => decide (cmpN x y = some .lt)) u us < m :=
        hsub _ (pickBy_mem _ u us)
      have hABs : rcA (pickBy (fun x y => decide (cmpN x y = some .lt)) u us) =
          rcB (pickBy (fun x y => decide (cmpN x y = some .lt)) u us) := hAB _ hseedlt
      cases hc : rcB (pickBy (fun x y => decide (cmpN x y = some .lt)) u us) with
      | error e =>
        have h1 : aggLoop cmpN rcA (.ord .SORTED) (fuel + 1) ((u :: us) ++ offs) used =
            .error e := by
          show aggLoop cmpN rcA (.ord .SORTED) (fuel + 1) (u :: (us ++ offs)) used = .error e
          simp only [aggLoop, resolveSeed_sortedN, hsA, hABs, hc]
        have h2 : aggLoop cmpN rcB (.ord .SORTED) (fuel + 1) (u :: us) used = .error e := by
          simp only [aggLoop, resolveSeed_sortedN, hc]
        rw [h1, h2]
        rfl
      | ok comp =>
        have hordc : ∀ v ∈ comp.order, v < m := hord _ comp hseedlt hc
        have hfsplit : (u :: (us ++ offs)).filter (fun v => decide (v ∉ comp.order)) =
            ((u :: us).filter (fun v => decide (v ∉ comp.order))) ++ offs := by
          show ((u :: us) ++ offs).filter (fun v => decide (v ∉ comp.order)) = _
          rw [List.filter_append]
          congr 1
          apply List.filter_eq_self.mpr
          intro x hx
          have hxm : m ≤ x := hoffs x hx
          have hxn : x ∉ comp.order := fun hmem => absurd (hordc x hmem) (by omega)
          simp [hxn]
        have hfl1 : ((u :: us).filter (fun v => decide (v ∉ comp.order))).length <
            (u :: us).length := by
          rw [List.length_filter_lt_length_iff_exists]
          refine ⟨pickBy (fun x y => decide (cmpN x y = some .lt)) u us,
            pickBy_mem _ u us, ?_⟩
          have hsmem : pickBy (fun x y => decide (cmpN x y = some .lt)) u us ∈
              comp.order := hseedA _ comp (hABs.trans hc)
          simp [hsmem]
        have hfl' : ((u :: us).filter (fun v => decide (v ∉ comp.order))).length +
            offs.length < fuel := by
          have hcons : (u :: us).length = us.length + 1 := rfl
          omega
        have hsub'' : ∀ v ∈ (u :: us).filter (fun v => decide (v ∉ comp.order)), v < m :=
          fun v hv => hsub v (List.mem_of_mem_filter hv)
        have hih := ih ((u :: us).filter (fun v => decide (v ∉ comp.order))) true hsub'' hfl'
        cases hr1 : aggLoop cmpN rcB (.ord .SORTED) fuel
            ((u :: us).filter (fun v => decide (v ∉ comp.order))) true with
        | error e =>
          have h1 : aggLoop cmpN rcA (.ord .SORTED) (fuel + 1) ((u :: us) ++ offs) used =
              .error e := by
            show aggLoop cmpN rcA (.ord .SORTED) (fuel + 1) (u :: (us ++ offs)) used =
              .error e
            simp only [aggLoop, resolveSeed_sortedN, hsA, hABs, hc, hfsplit, hih, hr1]
            rfl
          have h2 : aggLoop cmpN rcB (.ord .SORTED) (fuel + 1) (u :: us) used =
              .error e := by
            simp only [aggLoop, resolveSeed_sortedN, hc, hr1]
          rw [h1, h2]
          rfl
        | ok r₁ =>
          have h2 : aggLoop cmpN rcB (.ord .SORTED) (fuel + 1) (u :: us) used =
              .ok ⟨comp.parent ++ r₁.parents, comp.dist ++ r₁.dists,
                comp.order ++ r₁.order, comp.order :: r₁.ccs,
                comp.cycle || r₁.contains_cycle⟩ := by
            simp only [aggLoop, resolveSeed_sortedN, hc, hr1]
          cases hp2 : aggLoop cmpN rcA (.ord .SORTED) (offs.length + 1) offs true with
          | error e =>
            have h1 : aggLoop cmpN rcA (.ord .SORTED) (fuel + 1) ((u :: us) ++ offs) used =
                .error e := by
              show aggLoop cmpN rcA (.ord .SORTED) (fuel + 1) (u :: (us ++ offs)) used =
                .error e
              simp only [aggLoop, resolveSeed_sortedN, hsA, hABs, hc, hfsplit, hih, hr1, hp2]
              rfl
            rw [h1, h2]
            rfl
          | ok r₂ =>
            have h1 : aggLoop cmpN rcA (.ord .SORTED) (fuel + 1) ((u :: us) ++ offs) used =
                .ok ⟨comp.parent ++ (mergeRes r₁ r₂).parents,
                  comp.dist ++ (mergeRes r₁ r₂).dists,
                  comp.order ++ (mergeRes r₁ r₂).order,
                  comp.order :: (mergeRes r₁ r₂).ccs,
                  comp.cycle || (mergeRes r₁ r₂).contains_cycle⟩ := by
              show aggLoop cmpN rcA (.ord .SORTED) (fuel + 1) (u :: (us ++ offs)) used = _
              simp only [aggLoop, resolveSeed_sortedN, hsA, hABs, hc, hfsplit, hih, hr1, hp2]
              rfl
            rw [h1, h2]
            show Except.ok _ = Except.ok _
            congr 1
            simp [mergeRes, Bool.or_assoc]

/-! #### Assembling the disjoint-union theorem -/

theorem runCompDijN_seed_mem (g : Graph ℕ) :
    ∀ (s : ℕ) (comp : Comp ℕ), runCompDij cmpN g (some .SORTED) true s = .ok comp →
    s ∈ comp.order := by
  intro s comp h
  have h' : (runComp1 cmpN g (some .SORTED) s).map coreToComp = .ok comp := h
  cases hr : runComp1 cmpN g (some .SORTED) s with
  | error e =>
    rw [hr] at h'
    cases h'
  | ok c' =>
    rw [hr] at h'
    injection h' with h'
    rw [← h']
    exact runComp1_seed_mem g (some .SORTED) s hr

theorem runCompDijN_order_lt (g : Graph ℕ) (hWf : WfN g) :
    ∀ (s : ℕ) (comp : Comp ℕ), s < g.nodes.length →
    runCompDij cmpN g (some .SORTED) true s = .ok comp →
    ∀ v ∈ comp.order, v < g.nodes.length := by
  intro s comp hs h v hv
  have h' : (runComp1 cmpN g (some .SORTED) s).map coreToComp = .ok comp := h
  cases hr : runComp1 cmpN g (some .SORTED) s with
  | error e =>
    rw [hr] at h'
    cases h'
  | ok c' =>
    rw [hr] at h'
    injection h' with h'
    have hs' : s ∈ g.nodes := by
      rw [hWf.1]
      exact List.mem_range.mpr hs
    have hsub := runComp1_order_sub g (some .SORTED) hWf.2 hs' hr
    have hv' : v ∈ c'.settled := by
      rw [← h'] at hv
      exact hv
    have hvm := hsub v hv'
    rw [hWf.1] at hvm
    exact List.mem_range.mp hvm

theorem range_append_shift (n m : ℕ) :
    List.range n ++ (List.range m).map (fun v => v + n) = List.range (n + m) := by
  rw [List.range_add]
  congr 1
  apply List.map_congr_left
  intro x _
  omega

theorem WfN_concat2 {g₁ g₂ : Graph ℕ} (h₁ : WfN g₁) (h₂ : WfN g₂) : WfN (concat2 g₁ g₂) := by
  have hlen : (concat2 g₁ g₂).nodes.length = g₁.nodes.length + g₂.nodes.length := by
    show (g₁.nodes ++ g₂.nodes.map (fun v => v + g₁.nodes.length)).length = _
    rw [List.length_append, List.length_map]
  constructor
  · show g₁.nodes ++ g₂.nodes.map (fun v => v + g₁.nodes.length) =
      List.range (concat2 g₁ g₂).nodes.length
    rw [hlen, ← range_append_shift g₁.nodes.length g₂.nodes.length]
    congr 1
    · exact h₁.1
    · congr 1
      exact h₂.1
  · intro e he
    have he' : e ∈ g₁.edges ++
        g₂.edges.map (fun e => (e.1 + g₁.nodes.length, e.2.1 + g₁.nodes.length, e.2.2)) := he
    rcases List.mem_append.mp he' with he₁ | he₂
    · obtain ⟨hm1, hm2⟩ := h₁.2 e he₁
      constructor
      · show e.1 ∈ g₁.nodes ++ g₂.nodes.map (fun v => v + g₁.nodes.length)
        exact List.mem_append_left _ hm1
      · show e.2.1 ∈ g₁.nodes ++ g₂.nodes.map (fun v => v + g₁.nodes.length)
        exact List.mem_append_left _ hm2
    · obtain ⟨e₀, he₀, rfl⟩ := List.mem_map.mp he₂
      obtain ⟨hm1, hm2⟩ := h₂.2 e₀ he₀
      constructor
      · show e₀.1 + g₁.nodes.length ∈ g₁.nodes ++
          g₂.nodes.map (fun v => v + g₁.nodes.length)
        exact List.mem_append_right _ (List.mem_map.mpr ⟨e₀.1, hm1, rfl⟩)
      · show e₀.2.1 + g₁.nodes.length ∈ g₁.nodes ++
          g₂.nodes.map (fun v => v + g₁.nodes.length)
        exact List.mem_append_right _ (List.mem_map.mpr ⟨e₀.2.1, hm2, rfl⟩)

theorem mergeRes_assoc {α : Type} (a b c : Result α) :
    mergeRes (mergeRes a b) c = mergeRes a (mergeRes b c) := by
  simp [mergeRes, List.append_assoc, Bool.or_assoc]

/-- The ascending Dijkstra run of a two-graph disjoint concatenation is the
merge of the two independent runs, the second one's node identities offset. -/
theorem runN_concat2 (g₁ g₂ : Graph ℕ) (hWf₁ : WfN g₁) (hWf₂ : WfN g₂) :
    runN (concat2 g₁ g₂) =
      mergeRes (runN g₁) (shiftResult g₁.nodes.length (runN g₂)) := by
  have hlen : (concat2 g₁ g₂).nodes.length = g₁.nodes.length + g₂.nodes.length := by
    show (g₁.nodes ++ g₂.nodes.map (fun v => v + g₁.nodes.length)).length = _
    rw [List.length_append, List.length_map]
  have hunf : dijkstraN (concat2 g₁ g₂) =
      aggLoop cmpN (runCompDij cmpN (concat2 g₁ g₂) (some .SORTED) true) (.ord .SORTED)
        ((concat2 g₁ g₂).nodes.length + 1) (concat2 g₁ g₂).nodes false := by
    simp [dijkstraN, dijkstra, mutuallyComparable_cmpN]
  have hsplit := aggLoop_prefix_split
    (runCompDij cmpN (concat2 g₁ g₂) (some .SORTED) true)
    (runCompDij cmpN g₁ (some .SORTED) true)
    g₁.nodes.length
    (g₂.nodes.map (fun v => v + g₁.nodes.length))
    (by
      intro x hx
      obtain ⟨x₀, hx₀, rfl⟩ := List.mem_map.mp hx
      omega)
    (by
      intro s hs
      exact runCompDij_concat2_left g₁ g₂ hWf₁
        (by rw [hWf₁.1]; exact List.mem_range.mpr hs))
    (runCompDijN_order_lt g₁ hWf₁)
    (runCompDijN_seed_mem (concat2 g₁ g₂))
    (g₁.nodes.length + g₂.nodes.length + 1)
    g₁.nodes
    false
    (by
      intro v hv
      rw [hWf₁.1] at hv
      exact List.mem_range.mp hv)
    (by rw [List.length_map]; omega)
  have hph1 : aggLoop cmpN (runCompDij cmpN g₁ (some .SORTED) true) (.ord .SORTED)
      (g₁.nodes.length + g₂.nodes.length + 1) g₁.nodes false = .ok (runN g₁) := by
    obtain ⟨k, hk⟩ : ∃ k, g₁.nodes.length + g₂.nodes.length + 1 =
        (g₁.nodes.length + 1) + k := ⟨g₂.nodes.length, by omega⟩
    rw [hk, aggLoop_stable _ (runCompDijN_seed_mem g₁) (g₁.nodes.length + 1) k
      g₁.nodes false (by omega)]
    have hunf₁ : dijkstraN g₁ = aggLoop cmpN (runCompDij cmpN g₁ (some .SORTED) true)
        (.ord .SORTED) (g₁.nodes.length + 1) g₁.nodes false := by
      simp [dijkstraN, dijkstra, mutuallyComparable_cmpN]
    rw [← hunf₁]
    exact dijkstraN_ok g₁
  have hph2 : aggLoop cmpN (runCompDij cmpN (concat2 g₁ g₂) (some .SORTED) true)
      (.ord .SORTED) ((g₂.nodes.map (fun v => v + g₁.nodes.length)).length + 1)
      (g₂.nodes.map (fun v => v + g₁.nodes.length)) true =
      .ok (shiftResult g₁.nodes.length (runN g₂)) := by
    rw [aggLoop_shift_phase g₁ g₂ hWf₁ hWf₂
      ((g₂.nodes.map (fun v => v + g₁.nodes.length)).length + 1) g₂.nodes true
      (fun v hv => hv)]
    have hlm : (g₂.nodes.map (fun v => v + g₁.nodes.length)).length = g₂.nodes.length :=
      List.length_map _ _
    rw [hlm, aggLoop_used_irrel _ (g₂.nodes.length + 1) g₂.nodes true false]
    have hunf₂ : dijkstraN g₂ = aggLoop cmpN (runCompDij cmpN g₂ (some .SORTED) true)
        (.ord .SORTED) (g₂.nodes.length + 1) g₂.nodes false := by
      simp [dijkstraN, dijkstra, mutuallyComparable_cmpN]
    rw [← hunf₂, dijkstraN_ok g₂]
    rfl
  have hmain : dijkstraN (concat2 g₁ g₂) =
      .ok (mergeRes (runN g₁) (shiftResult g₁.nodes.length (runN g₂))) := by
    rw [hunf, hlen]
    show aggLoop cmpN (runCompDij cmpN (concat2 g₁ g₂) (some .SORTED) true) (.ord .SORTED)
        (g₁.nodes.length + g₂.nodes.length + 1)
        (g₁.nodes ++ g₂.nodes.map (fun v => v + g₁.nodes.length)) false = _
    rw [hsplit, hph1, hph2]
    rfl
  have hok := dijkstraN_ok (concat2 g₁ g₂)
  rw [hmain] at hok
  injection hok with hok
  exact hok.symm

theorem runN_fold (gs : List (Graph ℕ)) :
    ∀ (acc : Graph ℕ), WfN acc → (∀ g ∈ gs, WfN g) →
    runN (List.foldl concat2 acc gs) =
      mergeRes (runN acc) (combineResults acc.nodes.length gs) := by
  induction gs with
  | nil =>
    intro acc hacc hall
    show runN acc = mergeRes (runN acc) emptyResult
    rw [mergeRes_empty_right]
  | cons g gs ih =>
    intro acc hacc hall
    have hg : WfN g := hall g (List.mem_cons_self _ _)
    have hlen2 : (concat2 acc g).nodes.length = acc.nodes.length + g.nodes.length := by
      show (acc.nodes ++ g.nodes.map (fun v => v + acc.nodes.length)).length = _
      rw [List.length_append, List.length_map]
    show runN (List.foldl concat2 (concat2 acc g) gs) = _
    rw [ih (concat2 acc g) (WfN_concat2 hacc hg)
      (fun g' hg' => hall g' (List.mem_cons_of_mem _ hg'))]
    rw [runN_concat2 acc g hacc hg, hlen2, mergeRes_assoc]
    show mergeRes (runN acc) (mergeRes (shiftResult acc.nodes.length (runN g))
        (combineResults (acc.nodes.length + g.nodes.length) gs)) =
      mergeRes (runN acc) (mergeRes (shiftResult acc.nodes.length (runN g))
        (combineResults (acc.nodes.length + g.nodes.length) gs))
    rfl

/-- **C5**: running Dijkstra (either strategy) with ascending seed and
neighbor order on the disjoint union `concat_int_graphs gs` of well-formed
int graphs yields exactly the merge of each graph's independent run with node
identities offset by the cumulative node counts: parents and distances as a
plain union over disjoint keys, the global order as the concatenation of the
per-graph orders, each per-graph component list entry preserved, and the
cycle flag as the OR of the per-graph flags. -/
theorem c5_concat_int_graphs (gs : List (Graph ℕ)) (h : ∀ g ∈ gs, WfN g) (b : Bool) :
    dijkstra cmpN (concat_int_graphs gs) b (.ord .SORTED) (some .SORTED) =
      .ok (combineResults 0 gs) := by
  have h0 : WfN (⟨[], []⟩ : Graph ℕ) := ⟨rfl, fun e he => absurd he (List.not_mem_nil e)⟩
  have hfold := runN_fold gs ⟨[], []⟩ h0 h
  have hempty : runN (⟨[], []⟩ : Graph ℕ) = emptyResult := by rfl
  rw [hempty, mergeRes_empty_left,
    show (⟨[], []⟩ : Graph ℕ).nodes.length = 0 from rfl] at hfold
  have htrue : dijkstra cmpN (concat_int_graphs gs) true (.ord .SORTED) (some .SORTED) =
      .ok (combineResults 0 gs) := by
    have hok := dijkstraN_ok (concat_int_graphs gs)
    rw [show concat_int_graphs gs = List.foldl concat2 ⟨[], []⟩ gs from rfl, hfold] at hok
    exact hok
  cases b with
  | true => exact htrue
  | false =>
    rw [← dijkstra_strategies_eq]
    exact htrue

/-- Witness for C5 on a concrete two-graph list: a singleton graph and a
single-edge two-node graph. -/
theorem c5_concat_int_graphs_witness :
    (∀ g ∈ [Graph.ofN 1 [], Graph.ofN 2 [((0, 1), 1)]], WfN g) ∧
    dijkstra cmpN (concat_int_graphs [Graph.ofN 1 [], Graph.ofN 2 [((0, 1), 1)]]) true
        (.ord .SORTED) (some .SORTED) =
      .ok (combineResults 0 [Graph.ofN 1 [], Graph.ofN 2 [((0, 1), 1)]]) :=
  ⟨by decide,
   c5_concat_int_graphs [Graph.ofN 1 [], Graph.ofN 2 [((0, 1), 1)]] (by decide) true⟩

end GraphsSpec
